import Mathlib

/-!
Verification of the crossword placement-and-validation engine of the
`lojra-logjike` repository.  The definitions below are shallow embeddings of
the Python functions in `src/tools/wordle/auto_crossword.py` (the main
authority for the engine) and `src/build_puzzles.py` (which duplicates the
same routines with the module constant `GRID_SIZE = 7`).

Modelling conventions:
* A grid is a list of rows, each a list of `Char` cells; the sentinel for an
  empty cell is the character `'X'`, exactly as in the source.
* Python `set` values that are only used for membership tests (`word_set`,
  `actual_runs`, `used_runs`) are modelled as lists; `|  .. ` / `.add` become
  `List.insert`, which is membership-equivalent.
* The global Mersenne-Twister state of Python's `random` module is made
  explicit as a stream of natural numbers (`Rng`); `random.shuffle` is
  Fisher-Yates consuming one draw per step, `random.choice` consumes one
  draw and indexes modulo the list length.
-/

namespace Crossword

/-- Orientation of a placement, `"horizontal"` or `"vertical"` in the source. -/
inductive Dir : Type
  | horizontal : Dir
  | vertical : Dir
deriving DecidableEq, Repr

/-- A grid: list of rows of cells.  `'X'` marks an empty cell. -/
abbrev Grid := List (List Char)

/-- Python `make_grid(size)`: a `size × size` grid of `"X"` cells. -/
def make_grid (size : Nat) : Grid :=
  List.replicate size (List.replicate size 'X')

/-- Python `copy_grid(g)`: `[r[:] for r in g]`, a row-by-row copy.  As a value
it is the identity; it is kept as a named definition because `try_place`
mutates only this copy (see the store model below). -/
def copy_grid (g : Grid) : Grid := g.map id

/-- Read cell `(r, c)`; out-of-range reads default to the empty sentinel. -/
def getCell (g : Grid) (r c : Nat) : Char := (g.getD r []).getD c 'X'

/-- Write cell `(r, c)`; writes beyond the list bounds are dropped, matching
the fact that the source only ever writes in-bounds cells. -/
def setCell (g : Grid) (r c : Nat) (ch : Char) : Grid :=
  g.set r ((g.getD r []).set c ch)

/-- A well-formed grid of side `size`: `size` rows of `size` cells. -/
def WFGrid (g : Grid) (size : Nat) : Prop :=
  g.length = size ∧ ∀ row ∈ g, row.length = size

/-- Python `count_letters(grid)`: number of non-`"X"` cells. -/
def count_letters (g : Grid) : Nat :=
  (g.map (fun row => (row.filter (fun c => c ≠ 'X')).length)).sum

/-- The cells of row `r` read left to right, as scanned by the source
(`grid[r][c]` for `c` in `range(size)`). -/
def rowCells (g : Grid) (r size : Nat) : List Char :=
  (List.range size).map (fun c => getCell g r c)

/-- The cells of column `c` read top to bottom. -/
def colCells (g : Grid) (c size : Nat) : List Char :=
  (List.range size).map (fun r => getCell g r c)

/-- Core of the run scanner: walk the remaining cells with the letters of the
current run accumulated in reverse in `acc`; on a sentinel or at the end of
the line, emit the run when it has length `≥ 2`.  Mirrors the `while` loops of
`find_all_runs`. -/
def runsCore (acc : List Char) : List Char → List String
  | [] => if 2 ≤ acc.length then [String.mk acc.reverse] else []
  | c :: cs =>
      if c = 'X' then
        (if 2 ≤ acc.length then [String.mk acc.reverse] else []) ++ runsCore [] cs
      else
        runsCore (c :: acc) cs

/-- All maximal runs of length `≥ 2` of one line, in left-to-right order. -/
def runsOfLine (cells : List Char) : List String := runsCore [] cells

/-- Python `find_all_runs(grid, size)`: every horizontal run (row-major) then
every vertical run (column-major), texts only. -/
def find_all_runs (g : Grid) (size : Nat) : List String :=
  (((List.range size).map (fun r => runsOfLine (rowCells g r size))).flatten) ++
  (((List.range size).map (fun c => runsOfLine (colCells g c size))).flatten)

/-- Python `is_valid_after_placement(grid, word_set, size)`: every run of
length `≥ 2` is a member of the word set. -/
def is_valid_after_placement (g : Grid) (ws : List String) (size : Nat) : Bool :=
  (find_all_runs g size).all (fun run => ws.contains run)

/-- Row coordinate of letter `i` of a placement anchored at `row`:
`row + (i if direction == "vertical" else 0)`. -/
def cellR (row : Nat) (d : Dir) (i : Nat) : Nat :=
  row + (if d = Dir.vertical then i else 0)

/-- Column coordinate of letter `i` of a placement anchored at `col`:
`col + (i if direction == "horizontal" else 0)`. -/
def cellC (col : Nat) (d : Dir) (i : Nat) : Nat :=
  col + (if d = Dir.horizontal then i else 0)

/-- Loop body of `try_place`: letters with their indices, threaded over the
working copy of the grid.  The bounds test precedes the conflict test, as
in the source. -/
def place_loop (size row col : Nat) (d : Dir) : List (Nat × Char) → Grid → Option Grid
  | [], g => some g
  | (i, ch) :: rest, g =>
      if size ≤ cellR row d i ∨ size ≤ cellC col d i then none
      else if getCell g (cellR row d i) (cellC col d i) ≠ 'X' ∧
          getCell g (cellR row d i) (cellC col d i) ≠ ch then none
      else place_loop size row col d rest (setCell g (cellR row d i) (cellC col d i) ch)

/-- Python `try_place(grid, word, row, col, direction, size)`: place the word
on a copy of the grid, rejecting out-of-bounds overruns and letter
conflicts. -/
def try_place (g : Grid) (w : String) (row col : Nat) (d : Dir) (size : Nat) :
    Option Grid :=
  place_loop size row col d w.toList.enum (copy_grid g)

/-- Python `word_shares_cell(grid, word, row, col, direction, size)`: some
letter of the word lands on an already-occupied in-bounds cell. -/
def word_shares_cell (g : Grid) (w : String) (row col : Nat) (d : Dir)
    (size : Nat) : Bool :=
  (List.range w.length).any (fun i =>
    decide (cellR row d i < size) && decide (cellC col d i < size) &&
      (getCell g (cellR row d i) (cellC col d i) ≠ 'X'))

/-- A committed placement, the tuple `(word, row, col, direction)` of the
source's `placed` lists. -/
structure Placement : Type where
  word : String
  row : Nat
  col : Nat
  dir : Dir
deriving DecidableEq, Repr

/-- The set of cells occupied by a placement (`cells` in
`check_connectivity`), listed per letter index. -/
def word_cells (p : Placement) : List (Nat × Nat) :=
  (List.range p.word.length).map (fun i =>
    (cellR p.row p.dir i, cellC p.col p.dir i))

/-- Nonemptiness of the intersection of two cell lists
(`cells_per_word[i] & cells_per_word[j]` used as a truth value). -/
def cellsMeet (a b : List (Nat × Nat)) : Bool := a.any (fun x => b.contains x)

/-- Breadth-first traversal loop of `check_connectivity`: pop the head of the
queue, mark its unvisited neighbours and append them (in increasing index
order, one concrete realization of Python's unspecified set-iteration order;
the final visited set is order-independent).  The visited set is a
duplicate-free list.  Marking the fresh neighbours as one batch agrees with
the source's sequential `for nb in adj[n]` since the neighbours of a node are
pairwise distinct.  The loop is indexed by fuel so that it is structurally
recursive: every iteration pops one queue element and the total number of
pushes over a whole run is at most the number of nodes, so fuel
`queue.length + n` makes the fuel bound unreachable (made precise by the
`bfs_go` lemmas below, whose fuel hypothesis is exactly this bound). -/
def bfs_go (adj : Nat → List Nat) : Nat → List Nat → List Nat → List Nat
  | 0, visited, _ => visited
  | _ + 1, visited, [] => visited
  | fuel + 1, visited, x :: rest =>
      let fresh := (adj x).filter (fun v => ¬ visited.contains v)
      bfs_go adj fuel (visited ++ fresh) (rest ++ fresh)

/-- The fallback placement for out-of-range list reads (never consulted for
indices below the length). -/
def dummyPlacement : Placement := ⟨"", 0, 0, Dir.horizontal⟩

/-- Adjacency of `check_connectivity`: placements `j ≠ i` whose cell sets
intersect the cell set of `i`, in increasing index order. -/
def conn_adj (placed : List Placement) (i : Nat) : List Nat :=
  (List.range placed.length).filter (fun j =>
    decide (j ≠ i) &&
      cellsMeet (word_cells (placed.getD i dummyPlacement))
        (word_cells (placed.getD j dummyPlacement)))

/-- Python `check_connectivity(placed_words)`: trivially true for `≤ 1`
placements, otherwise a BFS from placement `0` must visit every placement. -/
def check_connectivity (placed : List Placement) : Bool :=
  if placed.length ≤ 1 then true
  else
    let visited := bfs_go (conn_adj placed) (1 + placed.length) [0] [0]
    visited.length == placed.length

/-- One candidate of `find_all_placements`: the tuple
`(r, c, direction, new_grid)`. -/
structure Cand : Type where
  row : Nat
  col : Nat
  dir : Dir
  grid : Grid
deriving Repr

/-- Python `find_all_placements(grid, word, word_set, size)`: every anchor and
orientation where the word places without conflict, crosses the existing grid
(waived on an empty grid), and leaves no ghost run against
`word_set ∪ {word}`. -/
def find_all_placements (g : Grid) (w : String) (ws : List String) (size : Nat) :
    List Cand :=
  let new_ws := ws.insert w
  ([Dir.horizontal, Dir.vertical].map (fun d =>
    let spanR := if d = Dir.vertical then w.length else 1
    let spanC := if d = Dir.horizontal then w.length else 1
    -- Python's `range(size - span + 1)` is empty when `span > size`.
    if spanR ≤ size ∧ spanC ≤ size then
      ((List.range (size - spanR + 1)).map (fun r =>
        ((List.range (size - spanC + 1)).filterMap (fun c =>
          match try_place g w r c d size with
          | none => none
          | some new_grid =>
              if 0 < count_letters g ∧ ¬ word_shares_cell g w r c d size then none
              else if is_valid_after_placement new_grid new_ws size then
                some ⟨r, c, d, new_grid⟩
              else none)))).flatten
    else [])).flatten

/-- Explicit model of the global state of Python's `random` module: a stream
of natural draws and a position.  Seeding (`random.seed(99)`) fixes such a
state; every primitive consumes one draw. -/
structure Rng : Type where
  stream : Nat → Nat
  pos : Nat

/-- Draw the next value from the stream. -/
def Rng.next (r : Rng) : Nat × Rng := (r.stream r.pos, ⟨r.stream, r.pos + 1⟩)

/-- Swap two positions of a list (`x[i], x[j] = x[j], x[i]`). -/
def listSwap {α : Type} (l : List α) (i j : Nat) : List α :=
  match l[i]?, l[j]? with
  | some a, some b => (l.set i b).set j a
  | _, _ => l

/-- Fisher-Yates loop of `random.shuffle`: for `i` from `len - 1` down to `1`,
draw `j` uniformly in `[0, i]` (modelled as `draw % (i + 1)`) and swap. -/
def shuffle_go {α : Type} (rng : Rng) (l : List α) : Nat → List α × Rng
  | 0 => (l, rng)
  | k + 1 =>
      let (d, rng') := rng.next
      shuffle_go rng' (listSwap l (k + 1) (d % (k + 2))) k

/-- Python `random.shuffle(x)`: in-place Fisher-Yates; the returned list is
the caller-visible content of `x` after the call. -/
def shuffle {α : Type} (rng : Rng) (l : List α) : List α × Rng :=
  shuffle_go rng l (l.length - 1)

/-- Mutable state threaded through one growth pass of `generate_puzzle`. -/
structure SearchSt : Type where
  grid : Grid
  ws : List String
  placed : List Placement
  rng : Rng

/-- Inner word loop of a pass: place each word at a randomly chosen legal
candidate, or defer it to `still_remaining` (returned second, in iteration
order). -/
def pass_words (size : Nat) : List String → SearchSt → List String →
    SearchSt × List String
  | [], st, acc => (st, acc)
  | word :: rest, st, acc =>
      if st.ws.contains word then pass_words size rest st acc
      else if size < word.length then pass_words size rest st (acc ++ [word])
      else
        match find_all_placements st.grid word st.ws size with
        | [] => pass_words size rest st (acc ++ [word])
        | p :: ps =>
            let (d, rng') := st.rng.next
            let cand := (p :: ps).getD (d % (p :: ps).length) p
            pass_words size rest
              ⟨cand.grid, st.ws.insert word,
               st.placed ++ [⟨word, cand.row, cand.col, cand.dir⟩], rng'⟩ acc

/-- The `for pass_num in range(3)` loop: shuffle the deferred pool and run a
pass, three times. -/
def passes_go (size : Nat) : Nat → List String → SearchSt → SearchSt
  | 0, _, st => st
  | k + 1, remaining, st =>
      let (rem', rng') := shuffle st.rng remaining
      let (st', still) := pass_words size rem' ⟨st.grid, st.ws, st.placed, rng'⟩ []
      passes_go size k still st'

/-- Attempt loop of `generate_puzzle`.  Arguments: attempts left, rng, the
caller-visible word pool, current best, current best score.  Returns the best
result together with the final pool contents (the pool is shuffled in place)
and the final rng state. -/
def gen_attempts (size mw ml : Nat) :
    Nat → Rng → List String → Option (Grid × List Placement) → Nat →
    Option (Grid × List Placement) × List String × Rng
  | 0, rng, pool, best, _ => (best, pool, rng)
  | a + 1, rng, pool, best, best_score =>
      let (pool', rng₁) := shuffle rng pool
      match pool' with
      | [] => (none, [], rng₁)  -- `word_pool[0]` raises IndexError in Python
      | first :: restPool =>
          let r := size / 2
          let c := max 0 ((size - first.length) / 2)
          match try_place (make_grid size) first r c Dir.horizontal size with
          | none => gen_attempts size mw ml a rng₁ (first :: restPool) best best_score
          | some grid0 =>
              let ws0 : List String := List.insert first []
              let placed0 : List Placement := [⟨first, r, c, Dir.horizontal⟩]
              let remaining := restPool.filter (fun w => ¬ ws0.contains w)
              let stF := passes_go size 3 remaining ⟨grid0, ws0, placed0, rng₁⟩
              let n_words := stF.placed.length
              let n_letters := count_letters stF.grid
              if mw ≤ n_words ∧ ml ≤ n_letters ∧ check_connectivity stF.placed then
                let score := n_words * 10 + n_letters
                if best_score < score then
                  if mw + 4 ≤ n_words then
                    (some (stF.grid, stF.placed), first :: restPool, stF.rng)
                  else
                    gen_attempts size mw ml a stF.rng (first :: restPool)
                      (some (stF.grid, stF.placed)) score
                else gen_attempts size mw ml a stF.rng (first :: restPool) best best_score
              else gen_attempts size mw ml a stF.rng (first :: restPool) best best_score

/-- Python `generate_puzzle(word_pool, size, min_words, min_letters,
max_attempts)`.  Besides the best `(grid, placed)` result it returns the final
contents of the caller's `word_pool` list and the final rng state. -/
def generate_puzzle (rng : Rng) (word_pool : List String) (size mw ml ma : Nat) :
    Option (Grid × List Placement) × List String × Rng :=
  gen_attempts size mw ml ma rng word_pool none 0

/-- Emit the accumulated run of a positioned line scan when long enough. -/
def emitRun : Option (Nat × List Char) → List (String × Nat)
  | none => []
  | some (s, acc) => if 2 ≤ acc.length then [(String.mk acc.reverse, s)] else []

/-- Positioned variant of the run scanner used by `clean_placed_words`: texts
together with the start index within the line. -/
def runsPosCore : Nat → Option (Nat × List Char) → List Char → List (String × Nat)
  | _, cur, [] => emitRun cur
  | i, cur, c :: cs =>
      if c = 'X' then emitRun cur ++ runsPosCore (i + 1) none cs
      else
        match cur with
        | none => runsPosCore (i + 1) (some (i, [c])) cs
        | some (s, acc) => runsPosCore (i + 1) (some (s, c :: acc)) cs

/-- Positioned maximal runs of one line, in left-to-right order. -/
def runsOfLineP (cells : List Char) : List (String × Nat) := runsPosCore 0 none cells

/-- The `actual_runs` set built by `clean_placed_words`: every maximal run of
length `≥ 2` with its text, anchor and orientation, encoded with the same
tuple shape as a placement. -/
def actual_runs (g : Grid) (size : Nat) : List Placement :=
  (((List.range size).map (fun r =>
    (runsOfLineP (rowCells g r size)).map
      (fun sr => Placement.mk sr.1 r sr.2 Dir.horizontal))).flatten) ++
  (((List.range size).map (fun c =>
    (runsOfLineP (colCells g c size)).map
      (fun sr => Placement.mk sr.1 sr.2 c Dir.vertical))).flatten)

/-- Filtering loop of `clean_placed_words`: keep a placement when its tuple is
an actual run not yet used, recording used runs. -/
def clean_go (runs : List Placement) : List Placement → List Placement →
    List Placement
  | _, [] => []
  | used, p :: rest =>
      if runs.contains p ∧ ¬ used.contains p then
        p :: clean_go runs (used.insert p) rest
      else clean_go runs used rest

/-- Python `clean_placed_words(grid, placed, size)`. -/
def clean_placed_words (g : Grid) (placed : List Placement) (size : Nat) :
    List Placement :=
  clean_go (actual_runs g size) [] placed

/-- Python `format_puzzle(grid, placed, size)`: the grid together with the
cleaned word list (the source then re-packages each tuple as a dict with the
same four fields). -/
def format_puzzle (g : Grid) (placed : List Placement) (size : Nat) :
    Grid × List Placement :=
  (g, clean_placed_words g placed size)

/-- Early-return scan of `check_no_ghosts`: first run not in the word set. -/
def ghost_scan (ws : List String) : List String → Bool × Option String
  | [] => (true, none)
  | run :: rest => if ws.contains run then ghost_scan ws rest else (false, some run)

/-- Python `check_no_ghosts(grid, word_set)` of `build_puzzles.py`,
generalized over the grid size (the module fixes `GRID_SIZE = 7`). -/
def check_no_ghosts (g : Grid) (ws : List String) (size : Nat) :
    Bool × Option String :=
  ghost_scan ws (find_all_runs g size)

/-- The module constant `GRID_SIZE` of `build_puzzles.py`. -/
def GRID_SIZE : Nat := 7

/-- Python `place_word(grid, word, row, col, direction)` of `build_puzzles.py`:
its body duplicates `try_place` with the module constant `GRID_SIZE`. -/
def place_word (g : Grid) (w : String) (row col : Nat) (d : Dir) : Option Grid :=
  try_place g w row col d GRID_SIZE

/-- Result of running a Python function that can either return a value,
return `None` (a rejection), or raise an uncaught exception. -/
inductive PyRes (α : Type) : Type
  | ok : α → PyRes α
  | rejected : PyRes α
  | error : PyRes α
deriving DecidableEq, Repr

/-- Python sequence indexing: indices in `[0, n)` are direct, indices in
`[-n, 0)` wrap to `n + i`, anything else raises `IndexError`. -/
def pyIdx (n : Nat) (i : Int) : Option Nat :=
  if 0 ≤ i ∧ i < (n : Int) then some i.toNat
  else if -(n : Int) ≤ i ∧ i < 0 then some (i + n).toNat
  else none

/-- Signed row coordinate of letter `i` for an `Int`-valued anchor. -/
def zCellR (row : Int) (d : Dir) (i : Nat) : Int :=
  row + (if d = Dir.vertical then (i : Int) else 0)

/-- Signed column coordinate of letter `i` for an `Int`-valued anchor. -/
def zCellC (col : Int) (d : Dir) (i : Nat) : Int :=
  col + (if d = Dir.horizontal then (i : Int) else 0)

/-- Loop of `try_place` with Python's signed-index semantics: the source only
guards `r >= size or c >= size`, so negative targets are not rejected; they
index from the end of the list (or raise `IndexError` below `-size`). -/
def place_loop_py (size : Nat) (row col : Int) (d : Dir) :
    List (Nat × Char) → Grid → PyRes Grid
  | [], g => PyRes.ok g
  | (i, ch) :: rest, g =>
      if (size : Int) ≤ zCellR row d i ∨ (size : Int) ≤ zCellC col d i then
        PyRes.rejected
      else
        match pyIdx g.length (zCellR row d i) with
        | none => PyRes.error
        | some ri =>
            match pyIdx (g.getD ri []).length (zCellC col d i) with
            | none => PyRes.error
            | some ci =>
                if getCell g ri ci ≠ 'X' ∧ getCell g ri ci ≠ ch then PyRes.rejected
                else place_loop_py size row col d rest (setCell g ri ci ch)

/-- `try_place` on arbitrary (possibly negative) anchor coordinates, exactly
as Python executes it. -/
def try_place_py (g : Grid) (w : String) (row col : Int) (d : Dir)
    (size : Nat) : PyRes Grid :=
  place_loop_py size row col d w.toList.enum (copy_grid g)

/-- A two-location heap for the body of `try_place`: the caller's grid object
and the local copy `g` that the loop mutates. -/
structure Store : Type where
  caller : Grid
  work : Grid

/-- The `try_place` loop with every write directed at the location it targets
in the source: all assignments `g[r][c] = ch` hit the local copy. -/
def place_loop_st (size row col : Nat) (d : Dir) :
    List (Nat × Char) → Store → Option Grid × Store
  | [], s => (some s.work, s)
  | (i, ch) :: rest, s =>
      if size ≤ cellR row d i ∨ size ≤ cellC col d i then (none, s)
      else if getCell s.work (cellR row d i) (cellC col d i) ≠ 'X' ∧
          getCell s.work (cellR row d i) (cellC col d i) ≠ ch then (none, s)
      else place_loop_st size row col d rest
        ⟨s.caller, setCell s.work (cellR row d i) (cellC col d i) ch⟩

/-- `try_place` over the explicit two-location heap: `g = copy_grid(grid)`
allocates the working copy, the loop then mutates it.  The final store is
returned so that the caller's grid can be inspected after the call. -/
def try_place_st (g : Grid) (w : String) (row col : Nat) (d : Dir)
    (size : Nat) : Option Grid × Store :=
  place_loop_st size row col d w.toList.enum ⟨g, copy_grid g⟩

/-- The module word list `WORDS_3` of `auto_crossword.py`. -/
def WORDS_3 : List String :=
  ["MAL", "DET", "UJË", "ZOG", "ERA", "VAJ", "ORA", "QEN", "ZIM",
   "DUA", "PIK", "MES", "LOT", "NJË", "SOT", "ZOT", "MUA", "DHE",
   "PAK", "TRE", "SAJ", "TIJ", "AJO", "KJO", "ARI", "VEL",
   "KOT", "FIK", "DIM", "VIT", "BUZ", "KUQ",
   "MIK", "FLE", "END", "VET", "JET", "MOS", "POR", "SHI",
   "NUK"]

/-- The module word list `WORDS_5` of `auto_crossword.py` (note `"NXËNË"`,
which contains the empty-cell sentinel letter `'X'`). -/
def WORDS_5 : List String :=
  ["LIBËR", "DREKË", "DARKË", "KISHA", "FLETË", "FSHAT", "ZEMËR",
   "NXËNË", "MOLLË", "MJEKË", "BLETË", "RRUGË", "SHKAK", "DRITË",
   "QUMËS", "MOTËR", "DJATË", "UJKUJ", "PESHK", "SHOKË", "MAJMË",
   "VAJZË", "DJALI", "BABAI", "PLAKË", "THIKË", "MIZËR", "DRURË",
   "BUKUR", "LUMËT", "LAGUR"]

/-- Declarative success condition for `try_place`: every letter lands inside
`[0, size)` and on a cell that is empty or already holds that letter. -/
def placeOK (g : Grid) (w : String) (row col : Nat) (d : Dir) (size : Nat) :
    Prop :=
  ∀ i < w.toList.length,
    cellR row d i < size ∧ cellC col d i < size ∧
      (getCell g (cellR row d i) (cellC col d i) = 'X' ∨
       getCell g (cellR row d i) (cellC col d i) = w.toList.getD i 'X')

/-- Declarative maximal run: positions `start .. start+len-1` of the line are
occupied, the run has length `≥ 2`, and it is maximal (bounded by the line
ends or by empty cells). -/
def IsRunAt (cells : List Char) (start len : Nat) : Prop :=
  2 ≤ len ∧ start + len ≤ cells.length ∧
  (∀ k < len, cells.getD (start + k) 'X' ≠ 'X') ∧
  (start = 0 ∨ cells.getD (start - 1) 'X' = 'X') ∧
  (start + len = cells.length ∨ cells.getD (start + len) 'X' = 'X')

/-- The text of the segment of a line starting at `start` of length `len`. -/
def lineSeg (cells : List Char) (start len : Nat) : String :=
  String.mk ((cells.drop start).take len)

/-- One edge of the connectivity graph: `j` is listed among the neighbours of
`i` (placements with intersecting cell sets). -/
def connStep (placed : List Placement) (i j : Nat) : Prop :=
  j ∈ conn_adj placed i

/-- Reachability in the connectivity graph. -/
def connReach (placed : List Placement) (i j : Nat) : Prop :=
  Relation.ReflTransGen (connStep placed) i j

/-- Grid evolution by a sequence of successful placements. -/
inductive Evolves (size : Nat) : Grid → Grid → Prop
  | refl (g : Grid) : Evolves size g g
  | step {g g' g'' : Grid} (w : String) (row col : Nat) (d : Dir) :
      Evolves size g g' → try_place g' w row col d size = some g'' →
      Evolves size g g''

/-- Proof-side invariant tying a scanner state to the ambient line `L` at
position `i`: `none` means position `i` follows a boundary (line start or an
empty cell); `some (s, acc)` means an active run started at `s`, its letters
so far are `acc` in reverse, they are exactly the segment `[s, i)` of `L`,
they are non-empty cells, and a boundary precedes `s`. -/
def runsStateOK (L : List Char) (i : Nat) : Option (Nat × List Char) → Prop
  | none => i = 0 ∨ L.getD (i - 1) 'X' = 'X'
  | some (s, acc) => acc ≠ [] ∧ s + acc.length = i ∧
      (L.drop s).take (i - s) = acc.reverse ∧ (∀ ch ∈ acc, ch ≠ 'X') ∧
      (s = 0 ∨ L.getD (s - 1) 'X' = 'X')

/-- Lower bound on the start of any run still to be produced by the scanner:
the current position, or the start of the active run. -/
def runsLowBound (i : Nat) : Option (Nat × List Char) → Nat
  | none => i
  | some (s, _) => s

/-- The accumulator of a scanner state, as used by the text-only scanner. -/
def accOf : Option (Nat × List Char) → List Char
  | none => []
  | some sa => sa.2

/-- Declarative grid-level run: the tuple `p` records a maximal run of length
`≥ 2` of the grid, horizontal runs anchored at `(row, start-column)`, vertical
runs at `(start-row, column)`. -/
def IsGridRun (g : Grid) (size : Nat) (p : Placement) : Prop :=
  (p.dir = Dir.horizontal ∧ p.row < size ∧
    ∃ len, IsRunAt (rowCells g p.row size) p.col len ∧
      p.word = lineSeg (rowCells g p.row size) p.col len) ∨
  (p.dir = Dir.vertical ∧ p.col < size ∧
    ∃ len, IsRunAt (colCells g p.col size) p.row len ∧
      p.word = lineSeg (colCells g p.col size) p.row len)

/-! ### Concrete grids and search inputs used below -/

/-- Grid after placing `"NXËNË"` (a pool word containing the sentinel letter
`'X'`) horizontally at `(0, 0)` on an empty `5 × 5` grid. -/
def gridNX : Grid :=
  [['N', 'X', 'Ë', 'N', 'Ë'],
   ['X', 'X', 'X', 'X', 'X'],
   ['X', 'X', 'X', 'X', 'X'],
   ['X', 'X', 'X', 'X', 'X'],
   ['X', 'X', 'X', 'X', 'X']]

/-- Grid after additionally placing `"MAL"` vertically at `(0, 1)`: the cell
`(0, 1)`, which held the letter `'X'` of `"NXËNË"`, now holds `'M'`. -/
def gridNXM : Grid :=
  [['N', 'M', 'Ë', 'N', 'Ë'],
   ['X', 'A', 'X', 'X', 'X'],
   ['X', 'L', 'X', 'X', 'X'],
   ['X', 'X', 'X', 'X', 'X'],
   ['X', 'X', 'X', 'X', 'X']]

/-- Grid with `"AB"` placed horizontally at `(0, 0)` on a `3 × 3` grid. -/
def gridAB : Grid := [['A', 'B', 'X'], ['X', 'X', 'X'], ['X', 'X', 'X']]

/-- Grid after additionally placing `"AD"` vertically at `(0, 0)` (the `'A'`
overlaps consistently). -/
def gridABD : Grid := [['A', 'B', 'X'], ['D', 'X', 'X'], ['X', 'X', 'X']]

/-- Grid with `"MAL"` placed horizontally at `(2, 2)` on the `7 × 7`
`build_puzzles` grid. -/
def gridMAL : Grid :=
  [['X', 'X', 'X', 'X', 'X', 'X', 'X'],
   ['X', 'X', 'X', 'X', 'X', 'X', 'X'],
   ['X', 'X', 'M', 'A', 'L', 'X', 'X'],
   ['X', 'X', 'X', 'X', 'X', 'X', 'X'],
   ['X', 'X', 'X', 'X', 'X', 'X', 'X'],
   ['X', 'X', 'X', 'X', 'X', 'X', 'X'],
   ['X', 'X', 'X', 'X', 'X', 'X', 'X']]

/-- Grid with the run `"MALI"` in row 0 of a `5 × 5` grid: the recorded cells
of a placement of `"MAL"` at `(0, 0)` horizontal are a strict subset of this
longer run. -/
def gridMALI : Grid :=
  [['M', 'A', 'L', 'I', 'X'],
   ['X', 'X', 'X', 'X', 'X'],
   ['X', 'X', 'X', 'X', 'X'],
   ['X', 'X', 'X', 'X', 'X'],
   ['X', 'X', 'X', 'X', 'X']]

/-- Draws for a concrete search run: identity shuffles (a Fisher-Yates draw
equal to the loop index leaves the element in place), then the candidate
indices chosen for `"ABC"`, `"AB"`, `"DA"` and `"EB"`. -/
def drawsC1 : List Nat := [4, 3, 2, 1, 3, 2, 1, 0, 2, 1, 1]

/-- The random state of the concrete search run. -/
def rngC1 : Rng := ⟨fun k => drawsC1.getD k 0, 0⟩

/-- The word pool of the concrete search run. -/
def poolC1 : List String := ["CDE", "ABC", "AB", "DA", "EB"]

/-- The grid the concrete search run returns: the seed `"CDE"` at `(3,1)`
horizontal, `"ABC"` at `(1,1)` vertical, `"AB"` overlaid inside that run at
`(1,1)` vertical, `"DA"` at `(3,2)` vertical and `"EB"` at `(3,3)` vertical.
Row 4 holds the incidental horizontal run `"AB"` formed by the tails of
`"DA"` and `"EB"`. -/
def gC1 : Grid :=
  [['X', 'X', 'X', 'X', 'X', 'X'],
   ['X', 'A', 'X', 'X', 'X', 'X'],
   ['X', 'B', 'X', 'X', 'X', 'X'],
   ['X', 'C', 'D', 'E', 'X', 'X'],
   ['X', 'X', 'A', 'B', 'X', 'X'],
   ['X', 'X', 'X', 'X', 'X', 'X']]

/-- The placement list the concrete search run returns. -/
def pC1 : List Placement :=
  [⟨"CDE", 3, 1, Dir.horizontal⟩, ⟨"ABC", 1, 1, Dir.vertical⟩,
   ⟨"AB", 1, 1, Dir.vertical⟩, ⟨"DA", 3, 2, Dir.vertical⟩,
   ⟨"EB", 3, 3, Dir.vertical⟩]

/-! ### Basic cell lemmas -/

theorem copy_grid_eq (g : Grid) : copy_grid g = g := by
  simp [copy_grid]

theorem getCell_setCell_ne (g : Grid) (r c i j : Nat) (ch : Char)
    (h : i ≠ r ∨ j ≠ c) :
    getCell (setCell g r c ch) i j = getCell g i j := by
  by_cases hir : i = r
  · subst hir
    have hjc : j ≠ c := h.resolve_left (fun hh => hh rfl)
    by_cases hlen : i < g.length
    · have hrow : (setCell g i c ch).getD i [] = (g.getD i []).set c ch := by
        unfold setCell
        rw [List.getD_eq_getElem?_getD, List.getElem?_set_self hlen,
          Option.getD_some]
      unfold getCell
      rw [hrow, List.getD_eq_getElem?_getD, List.getElem?_set_ne (Ne.symm hjc),
        ← List.getD_eq_getElem?_getD]
    · unfold getCell setCell
      rw [List.set_eq_of_length_le (Nat.le_of_not_lt hlen)]
  · have hrow : (setCell g r c ch).getD i [] = g.getD i [] := by
      unfold setCell
      rw [List.getD_eq_getElem?_getD, List.getElem?_set_ne (Ne.symm hir),
        ← List.getD_eq_getElem?_getD]
    unfold getCell
    rw [hrow]

theorem getCell_setCell_same (g : Grid) (r c : Nat) (ch : Char) :
    getCell (setCell g r c ch) r c = ch ∨
    getCell (setCell g r c ch) r c = getCell g r c := by
  by_cases h1 : r < g.length
  · have hrow : (setCell g r c ch).getD r [] = (g.getD r []).set c ch := by
      unfold setCell
      rw [List.getD_eq_getElem?_getD, List.getElem?_set_self h1, Option.getD_some]
    by_cases h2 : c < (g.getD r []).length
    · left
      unfold getCell
      rw [hrow, List.getD_eq_getElem?_getD, List.getElem?_set_self h2,
        Option.getD_some]
    · right
      unfold getCell
      rw [hrow, List.set_eq_of_length_le (Nat.le_of_not_lt h2)]
  · right
    unfold getCell setCell
    rw [List.set_eq_of_length_le (Nat.le_of_not_lt h1)]

/-! ### Monotonicity of `try_place` on occupied cells (claim C7) -/

theorem place_loop_preserves (size row col : Nat) (d : Dir) :
    ∀ (ps : List (Nat × Char)) (g g' : Grid),
      place_loop size row col d ps g = some g' →
      ∀ i j, getCell g i j ≠ 'X' → getCell g' i j = getCell g i j := by
  intro ps
  induction ps with
  | nil =>
      intro g g' h i j _
      simp only [place_loop] at h
      injection h with h
      rw [h]
  | cons p rest ih =>
      intro g g' h i j hne
      obtain ⟨k, ch⟩ := p
      simp only [place_loop] at h
      split at h
      · exact absurd h (by simp)
      · split at h
        · exact absurd h (by simp)
        · rename_i hbound hconf
          have hfree : getCell g (cellR row d k) (cellC col d k) = 'X' ∨
              getCell g (cellR row d k) (cellC col d k) = ch := by
            by_cases hx : getCell g (cellR row d k) (cellC col d k) = 'X'
            · exact Or.inl hx
            · right
              by_contra hcch
              exact hconf ⟨hx, hcch⟩
          have hkeep :
              getCell (setCell g (cellR row d k) (cellC col d k) ch) i j =
                getCell g i j := by
            by_cases hij : i = cellR row d k ∧ j = cellC col d k
            · obtain ⟨hi, hj⟩ := hij
              subst hi; subst hj
              have hich : getCell g (cellR row d k) (cellC col d k) = ch := by
                rcases hfree with hx | hh
                · exact absurd hx hne
                · exact hh
              rcases getCell_setCell_same g (cellR row d k) (cellC col d k) ch
                with hs | hs
              · rw [hs, hich]
              · exact hs
            · refine getCell_setCell_ne g (cellR row d k) (cellC col d k) i j ch ?_
              by_cases h1 : i = cellR row d k
              · exact Or.inr (fun h2 => hij ⟨h1, h2⟩)
              · exact Or.inl h1
          rw [← hkeep]
          exact ih (setCell g (cellR row d k) (cellC col d k) ch) g' h i j
            (by rw [hkeep]; exact hne)

theorem try_place_preserves (g : Grid) (w : String) (row col : Nat) (d : Dir)
    (size : Nat) (g' : Grid) (h : try_place g w row col d size = some g') :
    ∀ i j, getCell g i j ≠ 'X' → getCell g' i j = getCell g i j := by
  unfold try_place at h
  rw [copy_grid_eq] at h
  exact place_loop_preserves size row col d w.toList.enum g g' h

/-! ### Bounds behaviour of `try_place` (claim C6) -/

theorem place_loop_bounds (size row col : Nat) (d : Dir) :
    ∀ (ps : List (Nat × Char)) (g g' : Grid),
      place_loop size row col d ps g = some g' →
      ∀ p ∈ ps, cellR row d p.1 < size ∧ cellC col d p.1 < size := by
  intro ps
  induction ps with
  | nil => intro g g' _ p hp; exact absurd hp (List.not_mem_nil p)
  | cons q rest ih =>
      intro g g' h p hp
      obtain ⟨k, ch⟩ := q
      simp only [place_loop] at h
      split at h
      · exact absurd h (by simp)
      · split at h
        · exact absurd h (by simp)
        · rename_i hbound _
          rcases List.mem_cons.mp hp with hp | hp
          · subst hp
            push_neg at hbound
            exact ⟨hbound.1, hbound.2⟩
          · exact ih _ g' h p hp

theorem try_place_out_of_bounds (g : Grid) (w : String) (row col : Nat)
    (d : Dir) (size : Nat)
    (hoob : ∃ i, i < w.length ∧ (size ≤ cellR row d i ∨ size ≤ cellC col d i)) :
    try_place g w row col d size = none := by
  obtain ⟨i, hi, hout⟩ := hoob
  cases h : try_place g w row col d size with
  | none => rfl
  | some g' =>
      exfalso
      unfold try_place at h
      rw [copy_grid_eq] at h
      have hmem : (i, w.toList.getD i 'X') ∈ w.toList.enum := by
        rw [List.mk_mem_enum_iff_getElem?]
        rw [List.getD_eq_getElem?_getD]
        cases hg : w.toList[i]? with
        | none =>
            exfalso
            have hlen : w.toList.length ≤ i := List.getElem?_eq_none_iff.mp hg
            exact absurd hi (Nat.not_lt.mpr hlen)
        | some ch => simp
      have := place_loop_bounds size row col d w.toList.enum g g' h
        (i, w.toList.getD i 'X') hmem
      rcases hout with hout | hout
      · exact absurd this.1 (Nat.not_lt.mpr hout)
      · exact absurd this.2 (Nat.not_lt.mpr hout)

/-! ### Declarative characterization of `try_place` success -/

theorem cell_inj (row col : Nat) (d : Dir) (m m' : Nat)
    (h : cellR row d m = cellR row d m' ∧ cellC col d m = cellC col d m') :
    m = m' := by
  obtain ⟨h1, h2⟩ := h
  unfold cellR at h1
  unfold cellC at h2
  cases d with
  | horizontal => simp at h2; omega
  | vertical => simp at h1; omega

theorem cellR_horizontal (row i : Nat) : cellR row Dir.horizontal i = row := by
  unfold cellR
  simp

theorem cellR_vertical (row i : Nat) : cellR row Dir.vertical i = row + i := by
  unfold cellR
  simp

theorem cellC_horizontal (col i : Nat) : cellC col Dir.horizontal i = col + i := by
  unfold cellC
  simp

theorem cellC_vertical (col i : Nat) : cellC col Dir.vertical i = col := by
  unfold cellC
  simp

theorem place_loop_sound (g : Grid) (size row col : Nat) (d : Dir) :
    ∀ (cs : List Char) (k : Nat) (work g' : Grid),
      place_loop size row col d (List.enumFrom k cs) work = some g' →
      (∀ m, k ≤ m → getCell work (cellR row d m) (cellC col d m) =
        getCell g (cellR row d m) (cellC col d m)) →
      ∀ n < cs.length, cellR row d (k + n) < size ∧ cellC col d (k + n) < size ∧
        (getCell g (cellR row d (k + n)) (cellC col d (k + n)) = 'X' ∨
         getCell g (cellR row d (k + n)) (cellC col d (k + n)) = cs.getD n 'X') := by
  intro cs
  induction cs with
  | nil => intro k work g' _ _ n hn; exact absurd hn (by simp)
  | cons c rest ih =>
      intro k work g' h hag n hn
      simp only [List.enumFrom, place_loop] at h
      split at h
      · exact absurd h (by simp)
      · split at h
        · exact absurd h (by simp)
        · rename_i hbound hconf
          push_neg at hbound
          have hcur : getCell work (cellR row d k) (cellC col d k) =
              getCell g (cellR row d k) (cellC col d k) := hag k (Nat.le_refl k)
          have hagnew : ∀ m, k + 1 ≤ m →
              getCell (setCell work (cellR row d k) (cellC col d k) c)
                  (cellR row d m) (cellC col d m) =
                getCell g (cellR row d m) (cellC col d m) := by
            intro m hm
            rw [getCell_setCell_ne]
            · exact hag m (Nat.le_of_succ_le hm)
            · by_contra hcon
              push_neg at hcon
              have := cell_inj row col d m k ⟨hcon.1, hcon.2⟩
              omega
          cases n with
          | zero =>
              simp only [Nat.add_zero, List.getD_cons_zero]
              refine ⟨hbound.1, hbound.2, ?_⟩
              rw [← hcur]
              by_cases hx : getCell work (cellR row d k) (cellC col d k) = 'X'
              · exact Or.inl hx
              · right
                by_contra hcc
                exact hconf ⟨hx, hcc⟩
          | succ n' =>
              have hn' : n' < rest.length := by
                simp only [List.length_cons] at hn
                omega
              have hrec := ih (k + 1) _ g' h hagnew n' hn'
              have hidx : k + 1 + n' = k + (n' + 1) := by omega
              rw [hidx] at hrec
              simpa [List.getD_cons_succ] using hrec

theorem place_loop_complete (g : Grid) (size row col : Nat) (d : Dir) :
    ∀ (cs : List Char) (k : Nat) (work : Grid),
      (∀ m, k ≤ m → getCell work (cellR row d m) (cellC col d m) =
        getCell g (cellR row d m) (cellC col d m)) →
      (∀ n < cs.length, cellR row d (k + n) < size ∧ cellC col d (k + n) < size ∧
        (getCell g (cellR row d (k + n)) (cellC col d (k + n)) = 'X' ∨
         getCell g (cellR row d (k + n)) (cellC col d (k + n)) = cs.getD n 'X')) →
      ∃ g', place_loop size row col d (List.enumFrom k cs) work = some g' := by
  intro cs
  induction cs with
  | nil => intro k work _ _; exact ⟨work, rfl⟩
  | cons c rest ih =>
      intro k work hag hok
      have h0 := hok 0 (by simp)
      simp only [List.getD_cons_zero, Nat.add_zero] at h0
      have hcur : getCell work (cellR row d k) (cellC col d k) =
          getCell g (cellR row d k) (cellC col d k) := hag k (Nat.le_refl k)
      have hagnew : ∀ m, k + 1 ≤ m →
          getCell (setCell work (cellR row d k) (cellC col d k) c)
              (cellR row d m) (cellC col d m) =
            getCell g (cellR row d m) (cellC col d m) := by
        intro m hm
        rw [getCell_setCell_ne]
        · exact hag m (Nat.le_of_succ_le hm)
        · by_contra hcon
          push_neg at hcon
          have := cell_inj row col d m k ⟨hcon.1, hcon.2⟩
          omega
      have hoknew : ∀ n < rest.length,
          cellR row d (k + 1 + n) < size ∧ cellC col d (k + 1 + n) < size ∧
          (getCell g (cellR row d (k + 1 + n)) (cellC col d (k + 1 + n)) = 'X' ∨
           getCell g (cellR row d (k + 1 + n)) (cellC col d (k + 1 + n)) =
             rest.getD n 'X') := by
        intro n hn
        have hrec := hok (n + 1) (by simp only [List.length_cons]; omega)
        have hidx : k + (n + 1) = k + 1 + n := by omega
        rw [hidx] at hrec
        simpa [List.getD_cons_succ] using hrec
      obtain ⟨g', hg'⟩ := ih (k + 1) _ hagnew hoknew
      refine ⟨g', ?_⟩
      simp only [List.enumFrom, place_loop]
      rw [if_neg, if_neg]
      · exact hg'
      · rw [hcur]
        rcases h0.2.2 with hx | hx
        · intro hcon; exact hcon.1 hx
        · intro hcon; exact hcon.2 hx
      · push_neg
        exact ⟨h0.1, h0.2.1⟩

theorem try_place_isSome_iff (g : Grid) (w : String) (row col : Nat) (d : Dir)
    (size : Nat) :
    (∃ g', try_place g w row col d size = some g') ↔
      placeOK g w row col d size := by
  constructor
  · intro ⟨g', h⟩
    unfold try_place at h
    rw [copy_grid_eq] at h
    intro i hi
    have := place_loop_sound g size row col d w.toList 0 g g'
      (by simpa [List.enum] using h) (fun _ _ => rfl) i hi
    simpa using this
  · intro hok
    have hok' : ∀ n < w.toList.length,
        cellR row d (0 + n) < size ∧ cellC col d (0 + n) < size ∧
        (getCell g (cellR row d (0 + n)) (cellC col d (0 + n)) = 'X' ∨
         getCell g (cellR row d (0 + n)) (cellC col d (0 + n)) =
           w.toList.getD n 'X') := by
      intro n hn
      simpa using hok n hn
    obtain ⟨g', hg⟩ := place_loop_complete g size row col d w.toList 0 g
      (fun _ _ => rfl) hok'
    refine ⟨g', ?_⟩
    unfold try_place
    rw [copy_grid_eq]
    exact hg

/-! ### The store model of `try_place` (claim C5) -/

theorem place_loop_st_caller (size row col : Nat) (d : Dir) :
    ∀ (ps : List (Nat × Char)) (s : Store),
      (place_loop_st size row col d ps s).2.caller = s.caller := by
  intro ps
  induction ps with
  | nil => intro s; rfl
  | cons p rest ih =>
      intro s
      obtain ⟨k, ch⟩ := p
      simp only [place_loop_st]
      split
      · rfl
      · split
        · rfl
        · exact ih ⟨s.caller, setCell s.work (cellR row d k) (cellC col d k) ch⟩

theorem place_loop_st_agrees (size row col : Nat) (d : Dir) :
    ∀ (ps : List (Nat × Char)) (s : Store),
      (place_loop_st size row col d ps s).1 =
        place_loop size row col d ps s.work := by
  intro ps
  induction ps with
  | nil => intro s; rfl
  | cons p rest ih =>
      intro s
      obtain ⟨k, ch⟩ := p
      simp only [place_loop_st, place_loop]
      split
      · rfl
      · split
        · rfl
        · exact ih ⟨s.caller, setCell s.work (cellR row d k) (cellC col d k) ch⟩

theorem evolves_preserves (size : Nat) (g g' : Grid) (h : Evolves size g g') :
    ∀ i j, getCell g i j ≠ 'X' → getCell g' i j = getCell g i j := by
  induction h with
  | refl => intro i j _; rfl
  | step w row col d _ hplace ih =>
      intro i j hne
      have h1 := ih i j hne
      have h2 := try_place_preserves _ w row col d size _ hplace i j
        (by rw [h1]; exact hne)
      rw [h2, h1]

/-- Claim C7 as stated is false: the empty-cell sentinel and the letter `'X'`
are indistinguishable, so the cell `(0, 1)` that received the letter `'X'` of
the pool word `"NXËNË"` is later overwritten with the different letter `'M'`
by a successful placement of the pool word `"MAL"`. -/
theorem C7_counterexample :
    "NXËNË" ∈ WORDS_5 ∧ "MAL" ∈ WORDS_3 ∧
    try_place (make_grid 5) "NXËNË" 0 0 Dir.horizontal 5 = some gridNX ∧
    "NXËNË".toList.getD 1 'A' = 'X' ∧ getCell gridNX 0 1 = 'X' ∧
    try_place gridNX "MAL" 0 1 Dir.vertical 5 = some gridNXM ∧
    getCell gridNXM 0 1 = 'M' ∧ ('M' : Char) ≠ 'X' := by
  refine ⟨by decide, by decide, by decide, by decide, by decide, by decide,
    by decide, by decide⟩

/-- Claim C7, amended: along any sequence of successful placements, a cell
holding a NON-sentinel value keeps that exact value; cells holding `'X'`
(empty, or written with the letter `'X'` by a word containing it) may be
overwritten. -/
theorem C7_monotonic (size : Nat) (g g' : Grid) (h : Evolves size g g')
    (i j : Nat) (hne : getCell g i j ≠ 'X') :
    getCell g' i j = getCell g i j :=
  evolves_preserves size g g' h i j hne

/-- Witness for `C7_monotonic` at a concrete evolution. -/
theorem C7_monotonic_witness :
    getCell gridAB 0 1 ≠ 'X' ∧ getCell gridABD 0 1 = getCell gridAB 0 1 :=
  ⟨by decide,
   C7_monotonic 3 gridAB gridABD
     (Evolves.step "AD" 0 0 Dir.vertical (Evolves.refl gridAB) (by decide))
     0 1 (by decide)⟩

/-- Claim C6 as stated is false on negative anchors: every letter of `"AB"`
anchored at row `-1` maps to row `-1 ∉ [0, 3)`, yet `try_place` does not
reject the placement — Python's negative indexing wraps the writes to the
last row and the call returns a grid. -/
theorem C6_counterexample :
    zCellR (-1) Dir.horizontal 0 = -1 ∧ ((-1 : Int) < 0) ∧
    try_place_py (make_grid 3) "AB" (-1) 0 Dir.horizontal 3 =
      PyRes.ok [['X', 'X', 'X'], ['X', 'X', 'X'], ['A', 'B', 'X']] := by
  refine ⟨by decide, by decide, by decide⟩

/-- Claim C6, amended: for non-negative anchors, a placement any of whose
letters maps to a cell outside `[0, N)` is always rejected (`None`), for every
grid, every `N ≥ 1`, every word of length `> 0` and both orientations. -/
theorem C6_bounds_rejection (g : Grid) (w : String) (row col : Nat) (d : Dir)
    (size : Nat) (hsize : 1 ≤ size) (hw : 0 < w.length)
    (hoob : ∃ i, i < w.length ∧ (size ≤ cellR row d i ∨ size ≤ cellC col d i)) :
    try_place g w row col d size = none :=
  try_place_out_of_bounds g w row col d size hoob

/-- Witness for `C6_bounds_rejection`: `"ABCD"` sticks out of a `3 × 3` grid. -/
theorem C6_bounds_rejection_witness :
    (1 ≤ 3 ∧ 0 < "ABCD".length ∧ 3 < "ABCD".length ∧
      3 ≤ cellC 0 Dir.horizontal 3) ∧
    try_place (make_grid 3) "ABCD" 0 0 Dir.horizontal 3 = none :=
  ⟨⟨by decide, by decide, by decide, by decide⟩,
   C6_bounds_rejection (make_grid 3) "ABCD" 0 0 Dir.horizontal 3 (by decide)
     (by decide) ⟨3, by decide, Or.inr (by decide)⟩⟩

/-- Claim C5: when a placement is rejected, the caller's grid object is
unchanged after the call (and the store-model run rejects exactly when
`try_place` does). -/
theorem C5_rejection_no_mutation (g : Grid) (w : String) (row col : Nat)
    (d : Dir) (size : Nat) (hrej : try_place g w row col d size = none) :
    (try_place_st g w row col d size).1 = none ∧
    (try_place_st g w row col d size).2.caller = g := by
  constructor
  · rw [try_place_st, place_loop_st_agrees]
    show place_loop size row col d w.toList.enum (copy_grid g) = none
    rw [← try_place]
    exact hrej
  · exact place_loop_st_caller size row col d w.toList.enum ⟨g, copy_grid g⟩

/-- Witness for `C5_rejection_no_mutation`: placing `"CD"` over the `'A'` of
`gridAB` is a letter conflict; the caller's grid survives unchanged. -/
theorem C5_rejection_no_mutation_witness :
    try_place gridAB "CD" 0 0 Dir.horizontal 3 = none ∧
    (try_place_st gridAB "CD" 0 0 Dir.horizontal 3).1 = none ∧
    (try_place_st gridAB "CD" 0 0 Dir.horizontal 3).2.caller = gridAB :=
  ⟨by decide,
   C5_rejection_no_mutation gridAB "CD" 0 0 Dir.horizontal 3 (by decide)⟩

/-! ### Correctness of the run scanner -/

theorem drop_cons_succ {α : Type} (L : List α) (i : Nat) (c : α) (cs : List α)
    (h : L.drop i = c :: cs) : L.drop (i + 1) = cs := by
  rw [← List.drop_drop 1 i L, h]
  rfl

theorem drop_cons_getD {α : Type} (L : List α) (i : Nat) (c : α) (cs : List α)
    (d : α) (h : L.drop i = c :: cs) : L.getD i d = c := by
  have h0 : (L.drop i)[0]? = some c := by rw [h]; simp
  rw [List.getElem?_drop] at h0
  rw [List.getD_eq_getElem?_getD, Nat.add_zero] at *
  rw [h0]
  rfl

theorem drop_cons_lt {α : Type} (L : List α) (i : Nat) (c : α) (cs : List α)
    (h : L.drop i = c :: cs) : i < L.length := by
  by_contra hc
  rw [List.drop_eq_nil_iff.mpr (Nat.le_of_not_lt hc)] at h
  exact List.noConfusion h

/-- Inside an active run, every cell of `[s, i)` is occupied. -/
theorem state_nonX (L : List Char) (i s : Nat) (acc : List Char)
    (hst : runsStateOK L i (some (s, acc))) :
    ∀ k, s ≤ k → k < i → L.getD k 'X' ≠ 'X' := by
  obtain ⟨hne, hlen, hseg, hnx, hbd⟩ := hst
  intro k hks hki
  have hk1 : k - s < i - s := by omega
  have hk2 : k - s < acc.reverse.length := by
    rw [List.length_reverse]
    omega
  have hidx : L.getD k 'X' = acc.reverse.getD (k - s) 'X' := by
    rw [List.getD_eq_getElem?_getD, List.getD_eq_getElem?_getD, ← hseg]
    rw [List.getElem?_take, if_pos hk1, List.getElem?_drop]
    have : s + (k - s) = k := by omega
    rw [this]
  rw [hidx]
  have hmem : acc.reverse.getD (k - s) 'X' ∈ acc.reverse := by
    rw [List.getD_eq_getElem?_getD, List.getElem?_eq_getElem hk2]
    exact List.getElem_mem hk2
  exact hnx _ (List.mem_reverse.mp hmem)

/-- No run can start strictly inside or at the end of an active segment. -/
theorem state_no_inner_start (L : List Char) (i s : Nat) (acc : List Char)
    (hst : runsStateOK L i (some (s, acc))) (s' len : Nat)
    (hrun : IsRunAt L s' len) (hs : s ≤ s') : s' = s ∨ i + 1 ≤ s' := by
  obtain ⟨hne, hlen, hseg, hnx, hbd⟩ := hst
  have hslt : s < i := by
    have : 0 < acc.length := List.length_pos.mpr hne
    omega
  by_contra hcon
  push_neg at hcon
  obtain ⟨hss, hsi⟩ := hcon
  have hlt : s < s' := Nat.lt_of_le_of_ne hs (fun hh => hss hh.symm)
  have hbound := hrun.2.2.2.1
  rcases hbound with h0 | hX
  · omega
  · exact state_nonX L i s acc ⟨hne, hlen, hseg, hnx, hbd⟩ (s' - 1)
      (by omega) (by omega) hX

/-- When the cell at position `i` is a boundary (line end or empty), the
active run is maximal and its length is forced. -/
theorem state_run_len (L : List Char) (i s : Nat) (acc : List Char)
    (hst : runsStateOK L i (some (s, acc)))
    (hiL : i ≤ L.length)
    (hend : i = L.length ∨ L.getD i 'X' = 'X') :
    ∀ len, IsRunAt L s len → len = i - s := by
  intro len hrun
  obtain ⟨hne, hlen, hseg, hnx, hbd⟩ := hst
  obtain ⟨h2, hle, hcells, hleft, hright⟩ := hrun
  by_contra hcon
  rcases Nat.lt_or_ge len (i - s) with hlt | hge
  · -- the run would end before the boundary, inside the occupied segment
    rcases hright with hEnd | hX
    · omega
    · exact state_nonX L i s acc ⟨hne, hlen, hseg, hnx, hbd⟩ (s + len)
        (by omega) (by omega) hX
  · have hgt : i - s < len := by omega
    -- the run would include the boundary cell `i`
    have hcell := hcells (i - s) hgt
    have : s + (i - s) = i := by omega
    rw [this] at hcell
    rcases hend with hEnd | hX
    · omega
    · exact hcell hX

/-- When the cell at position `i` is a boundary, the active segment of length
`≥ 2` is a genuine maximal run. -/
theorem state_run_intro (L : List Char) (i s : Nat) (acc : List Char)
    (hst : runsStateOK L i (some (s, acc)))
    (hiL : i ≤ L.length)
    (hend : i = L.length ∨ L.getD i 'X' = 'X')
    (h2 : 2 ≤ acc.length) : IsRunAt L s (i - s) := by
  obtain ⟨hne, hlen, hseg, hnx, hbd⟩ := hst
  refine ⟨by omega, by omega, ?_, hbd, ?_⟩
  · intro k hk
    exact state_nonX L i s acc ⟨hne, hlen, hseg, hnx, hbd⟩ (s + k)
      (by omega) (by omega)
  · have : s + (i - s) = i := by omega
    rw [this]
    exact hend

/-- The emitted text of the active run is the segment text. -/
theorem state_seg_text (L : List Char) (i s : Nat) (acc : List Char)
    (hst : runsStateOK L i (some (s, acc))) :
    String.mk acc.reverse = lineSeg L s (i - s) := by
  obtain ⟨hne, hlen, hseg, hnx, hbd⟩ := hst
  unfold lineSeg
  rw [hseg]

/-- Main specification of the positioned line scanner: starting from a valid
state, it produces exactly the maximal runs of length `≥ 2` of the line whose
start is at or after the current region, with their segment texts. -/
theorem runsPosCore_spec (L : List Char) :
    ∀ (cs : List Char) (i : Nat) (cur : Option (Nat × List Char)),
      L.drop i = cs → i ≤ L.length → runsStateOK L i cur →
      ∀ t s', ((t, s') ∈ runsPosCore i cur cs ↔
        ∃ len, IsRunAt L s' len ∧ runsLowBound i cur ≤ s' ∧
          t = lineSeg L s' len) := by
  intro cs
  induction cs with
  | nil =>
      intro i cur hdrop hiL hst t s'
      have hiEq : i = L.length := by
        have := List.drop_eq_nil_iff.mp hdrop
        omega
      cases cur with
      | none =>
          simp only [runsPosCore, emitRun, List.not_mem_nil, false_iff]
          rintro ⟨len, hrun, hbound, _⟩
          obtain ⟨h2, hle, _, _, _⟩ := hrun
          simp only [runsLowBound] at hbound
          omega
      | some sa =>
          obtain ⟨s, acc⟩ := sa
          simp only [runsPosCore, emitRun, runsLowBound]
          by_cases h2 : 2 ≤ acc.length
          · rw [if_pos h2]
            constructor
            · intro hmem
              have hpair := List.mem_singleton.mp hmem
              rw [Prod.mk.injEq] at hpair
              obtain ⟨ht, hs⟩ := hpair
              refine ⟨i - s, ?_, ?_, ?_⟩
              · rw [hs]
                exact state_run_intro L i s acc hst hiL (Or.inl hiEq) h2
              · omega
              · rw [ht, hs]
                exact state_seg_text L i s acc hst
            · rintro ⟨len, hrun, hbound, ht⟩
              have hcase := state_no_inner_start L i s acc hst s' len hrun hbound
              have hsEq : s' = s := by
                rcases hcase with he | hgt
                · exact he
                · exfalso
                  obtain ⟨hl2, hle, _, _, _⟩ := hrun
                  omega
              subst hsEq
              have hlenEq : len = i - s' :=
                state_run_len L i s' acc hst hiL (Or.inl hiEq) len hrun
              rw [List.mem_singleton, Prod.mk.injEq]
              refine ⟨?_, rfl⟩
              rw [ht, hlenEq]
              exact (state_seg_text L i s' acc hst).symm
          · rw [if_neg h2]
            simp only [List.not_mem_nil, false_iff]
            rintro ⟨len, hrun, hbound, _⟩
            have hcase := state_no_inner_start L i s acc hst s' len hrun hbound
            have hsEq : s' = s := by
              rcases hcase with he | hgt
              · exact he
              · exfalso
                obtain ⟨hl2, hle, _, _, _⟩ := hrun
                omega
            subst hsEq
            have hlenEq : len = i - s' :=
              state_run_len L i s' acc hst hiL (Or.inl hiEq) len hrun
            have hacc : s' + acc.length = i := hst.2.1
            have h2len := hrun.1
            omega
  | cons c cs' ih =>
      intro i cur hdrop hiL hst t s'
      have hC : L.getD i 'X' = c := drop_cons_getD L i c cs' 'X' hdrop
      have hlt : i < L.length := drop_cons_lt L i c cs' hdrop
      have hdrop' : L.drop (i + 1) = cs' := drop_cons_succ L i c cs' hdrop
      by_cases hcx : c = 'X'
      · subst hcx
        have hstate' : runsStateOK L (i + 1) none := by
          right
          simpa using hC
        cases cur with
        | none =>
            have hred : runsPosCore i none ('X' :: cs') =
                runsPosCore (i + 1) none cs' := by
              simp [runsPosCore, emitRun]
            rw [hred, ih (i + 1) none hdrop' (by omega) hstate' t s']
            simp only [runsLowBound]
            constructor
            · rintro ⟨len, hrun, hb, ht⟩
              exact ⟨len, hrun, by omega, ht⟩
            · rintro ⟨len, hrun, hb, ht⟩
              refine ⟨len, hrun, ?_, ht⟩
              rcases Nat.eq_or_lt_of_le hb with he | hl
              · exfalso
                have hcell := hrun.2.2.1 0 (by have := hrun.1; omega)
                rw [Nat.add_zero, ← he] at hcell
                exact hcell hC
              · omega
        | some sa =>
            obtain ⟨s, acc⟩ := sa
            have hsi : s + acc.length = i := hst.2.1
            have haccne : acc ≠ [] := hst.1
            have haccpos : 0 < acc.length := List.length_pos.mpr haccne
            have hred : runsPosCore i (some (s, acc)) ('X' :: cs') =
                emitRun (some (s, acc)) ++ runsPosCore (i + 1) none cs' := by
              simp [runsPosCore]
            rw [hred, List.mem_append,
              ih (i + 1) none hdrop' (by omega) hstate' t s']
            simp only [runsLowBound, emitRun]
            constructor
            · rintro (hmem | ⟨len, hrun, hb, ht⟩)
              · by_cases h2 : 2 ≤ acc.length
                · rw [if_pos h2] at hmem
                  have hpair := List.mem_singleton.mp hmem
                  rw [Prod.mk.injEq] at hpair
                  obtain ⟨ht, hs⟩ := hpair
                  refine ⟨i - s, ?_, ?_, ?_⟩
                  · rw [hs]
                    exact state_run_intro L i s acc hst (by omega) (Or.inr hC) h2
                  · omega
                  · rw [ht, hs]
                    exact state_seg_text L i s acc hst
                · rw [if_neg h2] at hmem
                  exact absurd hmem (List.not_mem_nil _)
              · exact ⟨len, hrun, by omega, ht⟩
            · rintro ⟨len, hrun, hb, ht⟩
              have hcase := state_no_inner_start L i s acc hst s' len hrun hb
              rcases hcase with he | hgt
              · left
                subst he
                have hlenEq : len = i - s' :=
                  state_run_len L i s' acc hst (by omega) (Or.inr hC) len hrun
                have h2 : 2 ≤ acc.length := by
                  have := hrun.1
                  omega
                rw [if_pos h2, List.mem_singleton, Prod.ext_iff]
                refine ⟨?_, rfl⟩
                rw [ht, hlenEq]
                exact (state_seg_text L i s' acc hst).symm
              · right
                exact ⟨len, hrun, hgt, ht⟩
      · cases cur with
        | none =>
            have hstate' : runsStateOK L (i + 1) (some (i, [c])) := by
              refine ⟨by simp, by simp, ?_, ?_, ?_⟩
              · have : i + 1 - i = 1 := by omega
                rw [this]
                rw [show (1 : Nat) = 0 + 1 from rfl, List.take_succ]
                simp only [List.take_zero, List.nil_append]
                have : (L.drop i)[0]? = some c := by rw [hdrop]; simp
                rw [this]
                rfl
              · intro ch hch
                rw [List.mem_singleton.mp hch]
                exact hcx
              · exact hst
            have hred : runsPosCore i none (c :: cs') =
                runsPosCore (i + 1) (some (i, [c])) cs' := by
              simp [runsPosCore, hcx]
            rw [hred, ih (i + 1) (some (i, [c])) hdrop' (by omega) hstate' t s']
            simp only [runsLowBound]
        | some sa =>
            obtain ⟨s, acc⟩ := sa
            obtain ⟨haccne, hsi, hseg, hnxa, hbd⟩ := hst
            have hstate' : runsStateOK L (i + 1) (some (s, c :: acc)) := by
              refine ⟨by simp, by simp [List.length_cons]; omega, ?_, ?_, hbd⟩
              · have h1 : i + 1 - s = (i - s) + 1 := by omega
                rw [h1, List.take_succ, hseg]
                have h2 : (L.drop s)[i - s]? = some c := by
                  rw [List.getElem?_drop]
                  have h3 : s + (i - s) = i := by omega
                  rw [h3]
                  rw [List.getD_eq_getElem?_getD] at hC
                  cases hg : L[i]? with
                  | none =>
                      exfalso
                      exact absurd (List.getElem?_eq_some_iff.mpr
                        ⟨hlt, rfl⟩ ▸ hg) (by simp [hg] at *)
                  | some ch =>
                      rw [hg] at hC
                      simp only [Option.getD_some] at hC
                      rw [hC]
                rw [h2]
                simp [List.reverse_cons]
              · intro ch hch
                rcases List.mem_cons.mp hch with he | hm
                · rw [he]; exact hcx
                · exact hnxa ch hm
            have hred : runsPosCore i (some (s, acc)) (c :: cs') =
                runsPosCore (i + 1) (some (s, c :: acc)) cs' := by
              simp [runsPosCore, hcx]
            rw [hred,
              ih (i + 1) (some (s, c :: acc)) hdrop' (by omega) hstate' t s']
            simp only [runsLowBound]

/-- The positioned runs of a line are exactly its maximal runs of length
`≥ 2`, with their segment texts. -/
theorem runsOfLineP_spec (L : List Char) (t : String) (s : Nat) :
    (t, s) ∈ runsOfLineP L ↔
      ∃ len, IsRunAt L s len ∧ t = lineSeg L s len := by
  have h := runsPosCore_spec L L 0 none rfl (Nat.zero_le _) (Or.inl rfl) t s
  rw [runsOfLineP, h]
  simp only [runsLowBound, Nat.zero_le, true_and]

/-- The text-only scanner is the position scanner with positions dropped. -/
theorem runsCore_eq_map_fst :
    ∀ (cs : List Char) (i : Nat) (cur : Option (Nat × List Char)),
      runsCore (accOf cur) cs = (runsPosCore i cur cs).map Prod.fst := by
  intro cs
  induction cs with
  | nil =>
      intro i cur
      cases cur with
      | none => rfl
      | some sa =>
          obtain ⟨s, acc⟩ := sa
          simp only [runsCore, runsPosCore, emitRun, accOf]
          by_cases h2 : 2 ≤ acc.length
          · rw [if_pos h2, if_pos h2]
            rfl
          · rw [if_neg h2, if_neg h2]
            rfl
  | cons c cs' ih =>
      intro i cur
      by_cases hcx : c = 'X'
      · subst hcx
        cases cur with
        | none =>
            simp only [runsCore, runsPosCore, accOf, if_pos rfl, if_true,
              emitRun, List.nil_append]
            simpa [accOf] using ih (i + 1) none
        | some sa =>
            obtain ⟨s, acc⟩ := sa
            simp only [runsCore, runsPosCore, emitRun, accOf, if_pos rfl,
              if_true, List.map_append]
            rw [← ih (i + 1) none]
            by_cases h2 : 2 ≤ acc.length
            · rw [if_pos h2, if_pos h2]
              rfl
            · rw [if_neg h2, if_neg h2]
              rfl
      · cases cur with
        | none =>
            simp only [runsCore, runsPosCore, accOf, if_neg hcx]
            exact ih (i + 1) (some (i, [c]))
        | some sa =>
            obtain ⟨s, acc⟩ := sa
            simp only [runsCore, runsPosCore, accOf, if_neg hcx]
            exact ih (i + 1) (some (s, c :: acc))

theorem runsOfLine_eq_map (L : List Char) :
    runsOfLine L = (runsOfLineP L).map Prod.fst :=
  runsCore_eq_map_fst L 0 none

/-- Membership characterization for the text-only line scanner. -/
theorem runsOfLine_mem (L : List Char) (t : String) :
    t ∈ runsOfLine L ↔ ∃ s len, IsRunAt L s len ∧ t = lineSeg L s len := by
  rw [runsOfLine_eq_map, List.mem_map]
  constructor
  · rintro ⟨⟨t', s⟩, hmem, rfl⟩
    obtain ⟨len, hrun, ht⟩ := (runsOfLineP_spec L t' s).mp hmem
    exact ⟨s, len, hrun, ht⟩
  · rintro ⟨s, len, hrun, rfl⟩
    exact ⟨(lineSeg L s len, s), (runsOfLineP_spec L _ s).mpr ⟨len, hrun, rfl⟩, rfl⟩

/-- The texts scanned by `find_all_runs` are the run texts of `actual_runs`. -/
theorem find_all_runs_eq_actual (g : Grid) (size : Nat) :
    find_all_runs g size = (actual_runs g size).map Placement.word := by
  unfold find_all_runs actual_runs
  rw [List.map_append, List.map_flatten, List.map_flatten, List.map_map,
    List.map_map]
  congr 1
  · congr 1
    apply List.map_congr_left
    intro r _
    simp only [Function.comp]
    rw [runsOfLine_eq_map]
    rw [List.map_map]
    rfl
  · congr 1
    apply List.map_congr_left
    intro c _
    simp only [Function.comp]
    rw [runsOfLine_eq_map]
    rw [List.map_map]
    rfl

/-- Membership characterization of the `actual_runs` tuple set: exactly the
maximal runs of length `≥ 2` of the grid, keyed by text, anchor and
orientation. -/
theorem actual_runs_mem (g : Grid) (size : Nat) (p : Placement) :
    p ∈ actual_runs g size ↔ IsGridRun g size p := by
  unfold actual_runs IsGridRun
  rw [List.mem_append]
  constructor
  · rintro (hmem | hmem)
    · left
      rw [List.mem_flatten] at hmem
      obtain ⟨l, hl, hp⟩ := hmem
      rw [List.mem_map] at hl
      obtain ⟨r, hr, rfl⟩ := hl
      rw [List.mem_map] at hp
      obtain ⟨⟨t, s⟩, hts, hpe⟩ := hp
      obtain ⟨len, hrun, ht⟩ := (runsOfLineP_spec _ t s).mp hts
      rw [← hpe]
      exact ⟨rfl, List.mem_range.mp hr, len, hrun, ht⟩
    · right
      rw [List.mem_flatten] at hmem
      obtain ⟨l, hl, hp⟩ := hmem
      rw [List.mem_map] at hl
      obtain ⟨c, hc, rfl⟩ := hl
      rw [List.mem_map] at hp
      obtain ⟨⟨t, s⟩, hts, hpe⟩ := hp
      obtain ⟨len, hrun, ht⟩ := (runsOfLineP_spec _ t s).mp hts
      rw [← hpe]
      exact ⟨rfl, List.mem_range.mp hc, len, hrun, ht⟩
  · rintro (⟨hdir, hrow, len, hrun, ht⟩ | ⟨hdir, hcol, len, hrun, ht⟩)
    · left
      rw [List.mem_flatten]
      refine ⟨(runsOfLineP (rowCells g p.row size)).map
        (fun sr => Placement.mk sr.1 p.row sr.2 Dir.horizontal), ?_, ?_⟩
      · rw [List.mem_map]
        exact ⟨p.row, List.mem_range.mpr hrow, rfl⟩
      · rw [List.mem_map]
        refine ⟨(p.word, p.col), ?_, ?_⟩
        · exact (runsOfLineP_spec _ _ _).mpr ⟨len, hrun, ht⟩
        · cases p with
          | mk w r c d =>
              simp only at hdir
              rw [hdir]
    · right
      rw [List.mem_flatten]
      refine ⟨(runsOfLineP (colCells g p.col size)).map
        (fun sr => Placement.mk sr.1 sr.2 p.col Dir.vertical), ?_, ?_⟩
      · rw [List.mem_map]
        exact ⟨p.col, List.mem_range.mpr hcol, rfl⟩
      · rw [List.mem_map]
        refine ⟨(p.word, p.row), ?_, ?_⟩
        · exact (runsOfLineP_spec _ _ _).mpr ⟨len, hrun, ht⟩
        · cases p with
          | mk w r c d =>
              simp only at hdir
              rw [hdir]

/-! ### The ghost-word oracle (claims C8 and support for C1/C2) -/

/-- Texts appearing in `find_all_runs` are exactly the texts of grid runs. -/
theorem find_all_runs_mem (g : Grid) (size : Nat) (t : String) :
    t ∈ find_all_runs g size ↔ ∃ p, IsGridRun g size p ∧ p.word = t := by
  rw [find_all_runs_eq_actual, List.mem_map]
  constructor
  · rintro ⟨p, hp, rfl⟩
    exact ⟨p, (actual_runs_mem g size p).mp hp, rfl⟩
  · rintro ⟨p, hp, rfl⟩
    exact ⟨p, (actual_runs_mem g size p).mpr hp, rfl⟩

theorem ghost_scan_true (ws : List String) :
    ∀ runs : List String,
      (ghost_scan ws runs).1 = true ↔ ∀ r ∈ runs, r ∈ ws := by
  intro runs
  induction runs with
  | nil => simp [ghost_scan]
  | cons r rest ih =>
      simp only [ghost_scan]
      by_cases hr : ws.contains r = true
      · rw [if_pos hr, ih]
        constructor
        · intro h x hx
          rcases List.mem_cons.mp hx with he | hm
          · rw [he]
            exact List.elem_iff.mp hr
          · exact h x hm
        · intro h x hx
          exact h x (List.mem_cons_of_mem r hx)
      · rw [if_neg hr]
        constructor
        · intro h
          exact absurd h (by simp)
        · intro h
          exact absurd (List.elem_iff.mpr (h r (List.mem_cons_self r rest))) hr

theorem ghost_scan_false (ws : List String) (t : String) :
    ∀ runs : List String,
      ghost_scan ws runs = (false, some t) ↔
        ∃ pre post, runs = pre ++ t :: post ∧ (∀ r ∈ pre, r ∈ ws) ∧ t ∉ ws := by
  intro runs
  induction runs with
  | nil =>
      simp only [ghost_scan]
      constructor
      · intro h
        exact absurd (congrArg Prod.fst h) (by simp)
      · rintro ⟨pre, post, habs, -, -⟩
        exact absurd habs.symm (List.append_ne_nil_of_right_ne_nil pre
          (List.cons_ne_nil t post))
  | cons r rest ih =>
      simp only [ghost_scan]
      by_cases hr : ws.contains r = true
      · rw [if_pos hr, ih]
        constructor
        · rintro ⟨pre, post, hsplit, hpre, ht⟩
          refine ⟨r :: pre, post, by rw [hsplit]; rfl, ?_, ht⟩
          intro x hx
          rcases List.mem_cons.mp hx with he | hm
          · rw [he]
            exact List.elem_iff.mp hr
          · exact hpre x hm
        · rintro ⟨pre, post, hsplit, hpre, ht⟩
          cases pre with
          | nil =>
              exfalso
              have : r = t := by
                have := congrArg (fun l => List.head? l) hsplit
                simpa using this
              rw [this] at hr
              exact ht (List.elem_iff.mp hr)
          | cons q pre' =>
              have hq : r = q ∧ rest = pre' ++ t :: post := by
                have := hsplit
                rw [List.cons_append] at this
                exact ⟨List.head_eq_of_cons_eq this, List.tail_eq_of_cons_eq this⟩
              refine ⟨pre', post, hq.2, ?_, ht⟩
              intro x hx
              exact hpre x (List.mem_cons_of_mem q hx)
      · rw [if_neg hr]
        constructor
        · intro h
          have ht : t = r := by
            have := congrArg Prod.snd h
            simpa using this.symm
          subst ht
          exact ⟨[], rest, rfl, by simp, fun hm => hr (List.elem_iff.mpr hm)⟩
        · rintro ⟨pre, post, hsplit, hpre, ht⟩
          cases pre with
          | nil =>
              have : r = t := by
                have := congrArg (fun l => List.head? l) hsplit
                simpa using this
              rw [this]
          | cons q pre' =>
              exfalso
              have hq : r = q := by
                rw [List.cons_append] at hsplit
                exact List.head_eq_of_cons_eq hsplit
              apply hr
              apply List.elem_iff.mpr
              rw [hq]
              exact hpre q (List.mem_cons_self q pre')

/-- Claim C8: `check_no_ghosts` accepts iff the text of every maximal run of
length `≥ 2` is an exact member of the word set, and on rejection the
returned run is the first ghost in the traversal order of `find_all_runs`
(row-major horizontal scan followed by column-major vertical scan).  The
concrete conjunct shows that a run (`"MAL"`) that is a proper substring of a
word in the set (`"MALI"`) is still a ghost. -/
theorem C8_check_no_ghosts (g : Grid) (ws : List String) (size : Nat) :
    ((check_no_ghosts g ws size).1 = true ↔
      ∀ p, IsGridRun g size p → p.word ∈ ws) ∧
    (∀ t, check_no_ghosts g ws size = (false, some t) ↔
      ∃ pre post, find_all_runs g size = pre ++ t :: post ∧
        (∀ r ∈ pre, r ∈ ws) ∧ t ∉ ws) ∧
    check_no_ghosts gridMAL ["MALI"] GRID_SIZE = (false, some "MAL") := by
  refine ⟨?_, ?_, by decide⟩
  · rw [check_no_ghosts, ghost_scan_true]
    constructor
    · intro h p hp
      exact h p.word ((find_all_runs_mem g size p.word).mpr ⟨p, hp, rfl⟩)
    · intro h r hr
      obtain ⟨p, hp, rfl⟩ := (find_all_runs_mem g size r).mp hr
      exact h p hp
  · intro t
    rw [check_no_ghosts, ghost_scan_false]

/-- Witness instance for `C8_check_no_ghosts` (an accepting and a rejecting
evaluation). -/
theorem C8_check_no_ghosts_witness :
    (check_no_ghosts gridMAL ["MAL"] GRID_SIZE).1 = true ∧
    check_no_ghosts gridMAL ["MALI"] GRID_SIZE = (false, some "MAL") :=
  ⟨by decide, (C8_check_no_ghosts gridMAL ["MALI"] GRID_SIZE).2.2⟩

/-! ### Subsumption cleanup (claim C4) -/

theorem clean_go_mem (runs : List Placement) :
    ∀ (l used : List Placement) (p : Placement),
      p ∈ clean_go runs used l ↔ p ∈ l ∧ p ∈ runs ∧ p ∉ used := by
  intro l
  induction l with
  | nil =>
      intro used p
      simp [clean_go]
  | cons q rest ih =>
      intro used p
      simp only [clean_go]
      split
      · rename_i hcond
        obtain ⟨hq1, hq2⟩ := hcond
        rw [List.mem_cons, ih]
        constructor
        · rintro (heq | ⟨hm, hr, hu⟩)
          · refine ⟨?_, ?_, ?_⟩
            · rw [heq]
              exact List.mem_cons_self q rest
            · rw [heq]
              exact List.elem_iff.mp hq1
            · rw [heq]
              exact fun hc => hq2 (List.elem_iff.mpr hc)
          · refine ⟨List.mem_cons_of_mem q hm, hr, fun hc => ?_⟩
            exact hu (List.mem_insert_iff.mpr (Or.inr hc))
        · rintro ⟨hm, hr, hu⟩
          by_cases heq : p = q
          · exact Or.inl heq
          · have hm' : p ∈ rest := by
              rcases List.mem_cons.mp hm with h1 | h2
              · exact absurd h1 heq
              · exact h2
            refine Or.inr ⟨hm', hr, fun hc => ?_⟩
            rcases List.mem_insert_iff.mp hc with h1 | h2
            · exact heq h1
            · exact hu h2
      · rename_i hcond
        rw [ih]
        constructor
        · rintro ⟨hm, hr, hu⟩
          exact ⟨List.mem_cons_of_mem q hm, hr, hu⟩
        · rintro ⟨hm, hr, hu⟩
          by_cases heq : p = q
          · exfalso
            apply hcond
            constructor
            · apply List.elem_iff.mpr
              rw [← heq]
              exact hr
            · intro hc
              apply hu
              rw [heq]
              exact List.elem_iff.mp hc
          · have hm' : p ∈ rest := by
              rcases List.mem_cons.mp hm with h1 | h2
              · exact absurd h1 heq
              · exact h2
            exact ⟨hm', hr, hu⟩

theorem clean_go_nodup (runs : List Placement) :
    ∀ (l used : List Placement), (clean_go runs used l).Nodup := by
  intro l
  induction l with
  | nil => intro used; simp [clean_go]
  | cons q rest ih =>
      intro used
      simp only [clean_go]
      split
      · rename_i hcond
        refine List.Nodup.cons ?_ (ih (used.insert q))
        intro hmem
        have := (clean_go_mem runs rest (used.insert q) q).mp hmem
        exact this.2.2 (List.mem_insert_iff.mpr (Or.inl rfl))
      · exact ih used

/-- Claim C4: `clean_placed_words` keeps exactly the placed tuples that
coincide with an actual maximal run of length `≥ 2` of the final grid, each
run matched at most once (the output has no duplicate tuples), and drops
every placement whose original run no longer exists standalone.  The concrete
conjuncts exhibit the subsumption scenario: `"MAL"` at `(0,0)` horizontal is
strictly contained in the actual run `"MALI"` — the cleaned output lists
`"MALI"` at the run's position and drops `"MAL"`. -/
theorem C4_clean_placed_words (g : Grid) (placed : List Placement) (size : Nat) :
    (∀ p, p ∈ clean_placed_words g placed size ↔
      p ∈ placed ∧ IsGridRun g size p) ∧
    (clean_placed_words g placed size).Nodup ∧
    (Placement.mk "MALI" 0 0 Dir.horizontal ∈ actual_runs gridMALI 5 ∧
     Placement.mk "MAL" 0 0 Dir.horizontal ∉ actual_runs gridMALI 5 ∧
     clean_placed_words gridMALI
       [⟨"MAL", 0, 0, Dir.horizontal⟩, ⟨"MALI", 0, 0, Dir.horizontal⟩] 5 =
       [⟨"MALI", 0, 0, Dir.horizontal⟩]) := by
  refine ⟨?_, clean_go_nodup _ _ _, by decide, by decide, by decide⟩
  intro p
  rw [clean_placed_words, clean_go_mem, ← actual_runs_mem]
  constructor
  · rintro ⟨hm, hr, -⟩
    exact ⟨hm, hr⟩
  · rintro ⟨hm, hr⟩
    exact ⟨hm, hr, List.not_mem_nil p⟩

/-! ### Correctness of the connectivity BFS (claim C3) -/

theorem bfs_sound (adj : Nat → List Nat) (s : Nat) :
    ∀ (fuel : Nat) (visited queue : List Nat),
      (∀ v ∈ visited, Relation.ReflTransGen (fun i j => j ∈ adj i) s v) →
      (∀ v ∈ queue, v ∈ visited) →
      ∀ v ∈ bfs_go adj fuel visited queue,
        Relation.ReflTransGen (fun i j => j ∈ adj i) s v := by
  intro fuel
  induction fuel with
  | zero => intro visited queue hv _ v hm; exact hv v hm
  | succ fuel ih =>
      intro visited queue hv hq v hm
      cases queue with
      | nil => exact hv v hm
      | cons x rest =>
          simp only [bfs_go] at hm
          refine ih _ _ ?_ ?_ v hm
          · intro u hu
            rcases List.mem_append.mp hu with h1 | h2
            · exact hv u h1
            · have hx := hv x (hq x (List.mem_cons_self x rest))
              have := List.mem_filter.mp h2
              exact Relation.ReflTransGen.tail hx this.1
          · intro u hu
            rcases List.mem_append.mp hu with h1 | h2
            · exact List.mem_append.mpr (Or.inl (hq u
                (List.mem_cons_of_mem x h1)))
            · exact List.mem_append.mpr (Or.inr h2)

theorem bfs_bounded (adj : Nat → List Nat) (n : Nat)
    (hadj : ∀ x y, y ∈ adj x → y < n) (hadjnd : ∀ x, (adj x).Nodup) :
    ∀ (fuel : Nat) (visited queue : List Nat),
      visited.Nodup → (∀ v ∈ visited, v < n) →
      (bfs_go adj fuel visited queue).Nodup ∧
      (∀ v ∈ bfs_go adj fuel visited queue, v < n) ∧
      (∀ v ∈ visited, v ∈ bfs_go adj fuel visited queue) := by
  intro fuel
  induction fuel with
  | zero => intro visited queue hnd hlt; exact ⟨hnd, hlt, fun v hv => hv⟩
  | succ fuel ih =>
      intro visited queue hnd hlt
      cases queue with
      | nil => exact ⟨hnd, hlt, fun v hv => hv⟩
      | cons x rest =>
          simp only [bfs_go]
          have hvnd : (visited ++
              (adj x).filter (fun v => ¬ visited.contains v)).Nodup := by
            refine List.Nodup.append hnd (List.Nodup.filter _ (hadjnd x)) ?_
            intro a ha hfa
            have hmem := (List.mem_filter.mp hfa).2
            simp only [decide_not, Bool.not_eq_true', decide_eq_false_iff_not] at hmem
            exact hmem (List.elem_iff.mpr ha)
          have hvlt : ∀ v ∈ visited ++
              (adj x).filter (fun v => ¬ visited.contains v), v < n := by
            intro v hv
            rcases List.mem_append.mp hv with h1 | h2
            · exact hlt v h1
            · exact hadj x v (List.mem_filter.mp h2).1
          have hrec := ih _ (rest ++ (adj x).filter
            (fun v => ¬ visited.contains v)) hvnd hvlt
          exact ⟨hrec.1, hrec.2.1, fun v hv => hrec.2.2 v
            (List.mem_append.mpr (Or.inl hv))⟩

theorem bfs_closed (adj : Nat → List Nat) (n : Nat)
    (hadj : ∀ x y, y ∈ adj x → y < n) (hadjnd : ∀ x, (adj x).Nodup) :
    ∀ (fuel : Nat) (visited queue : List Nat),
      queue.length + ((Finset.range n) \ visited.toFinset).card ≤ fuel →
      (∀ v ∈ queue, v ∈ visited) →
      (∀ v ∈ visited, v ∉ queue → ∀ u ∈ adj v, u ∈ visited) →
      ∀ v ∈ bfs_go adj fuel visited queue, ∀ u ∈ adj v,
        u ∈ bfs_go adj fuel visited queue := by
  intro fuel
  induction fuel with
  | zero =>
      intro visited queue hb hq hcl v hv u hu
      have hq0 : queue = [] := List.length_eq_zero.mp (by omega)
      subst hq0
      exact hcl v hv (List.not_mem_nil v) u hu
  | succ fuel ih =>
      intro visited queue hb hq hcl v hv u hu
      cases queue with
      | nil =>
          exact hcl v hv (List.not_mem_nil v) u hu
      | cons x rest =>
          simp only [bfs_go] at hv ⊢
          set F := (adj x).filter (fun v => ¬ visited.contains v) with hF
          have hFnd : F.Nodup := List.Nodup.filter _ (hadjnd x)
          have hFsub : F.toFinset ⊆ (Finset.range n) \ visited.toFinset := by
            intro a ha
            rw [List.mem_toFinset] at ha
            have h1 := List.mem_filter.mp ha
            rw [Finset.mem_sdiff, Finset.mem_range]
            refine ⟨hadj x a h1.1, ?_⟩
            rw [List.mem_toFinset]
            have h2 := h1.2
            simp only [decide_not, Bool.not_eq_true', decide_eq_false_iff_not] at h2
            intro hc
            exact h2 (List.elem_iff.mpr hc)
          have hb' : (rest ++ F).length +
              ((Finset.range n) \ (visited ++ F).toFinset).card ≤ fuel := by
            rw [List.length_append, List.toFinset_append]
            have hsd : (Finset.range n) \ (visited.toFinset ∪ F.toFinset) =
                ((Finset.range n) \ visited.toFinset) \ F.toFinset := by
              ext a
              simp [and_assoc]
            rw [hsd, Finset.card_sdiff hFsub]
            have hlen : F.toFinset.card = F.length :=
              List.toFinset_card_of_nodup hFnd
            have hle : F.toFinset.card ≤
                ((Finset.range n) \ visited.toFinset).card :=
              Finset.card_le_card hFsub
            simp only [List.length_cons] at hb
            omega
          refine ih (visited ++ F) (rest ++ F) hb' ?_ ?_ v hv u hu
          · intro a ha
            rcases List.mem_append.mp ha with h1 | h2
            · exact List.mem_append.mpr (Or.inl (hq a
                (List.mem_cons_of_mem x h1)))
            · exact List.mem_append.mpr (Or.inr h2)
          · intro a ha hnq w hw
            rcases List.mem_append.mp ha with h1 | h2
            · by_cases hax : a = x
              · subst hax
                by_cases hwv : w ∈ visited
                · exact List.mem_append.mpr (Or.inl hwv)
                · refine List.mem_append.mpr (Or.inr ?_)
                  rw [hF, List.mem_filter]
                  refine ⟨hw, ?_⟩
                  simp only [decide_not, Bool.not_eq_true',
                    decide_eq_false_iff_not]
                  intro hc
                  exact hwv (List.elem_iff.mp hc)
              · have hanq : a ∉ x :: rest := by
                  intro hc
                  rcases List.mem_cons.mp hc with h3 | h4
                  · exact hax h3
                  · exact hnq (List.mem_append.mpr (Or.inl h4))
                exact List.mem_append.mpr (Or.inl (hcl a h1 hanq w hw))
            · exfalso
              exact hnq (List.mem_append.mpr (Or.inr h2))

theorem reach_mem_of_closed (adj : Nat → List Nat) (R : List Nat)
    (hclosed : ∀ v ∈ R, ∀ u ∈ adj v, u ∈ R) (s v : Nat)
    (hreach : Relation.ReflTransGen (fun i j => j ∈ adj i) s v) (hs : s ∈ R) :
    v ∈ R := by
  induction hreach with
  | refl => exact hs
  | tail _ hstep ih => exact hclosed _ ih _ hstep

theorem conn_adj_lt (placed : List Placement) (i j : Nat)
    (h : j ∈ conn_adj placed i) : j < placed.length := by
  unfold conn_adj at h
  exact List.mem_range.mp (List.mem_filter.mp h).1

theorem conn_adj_nodup (placed : List Placement) (i : Nat) :
    (conn_adj placed i).Nodup :=
  List.Nodup.filter _ (List.nodup_range _)

/-- The adjacency of the connectivity graph, declaratively: distinct indices
below the number of placements whose occupied-cell sets share a cell. -/
theorem connStep_iff (placed : List Placement) (i j : Nat) :
    connStep placed i j ↔
      j < placed.length ∧ j ≠ i ∧
      ∃ cell, cell ∈ word_cells (placed.getD i dummyPlacement) ∧
        cell ∈ word_cells (placed.getD j dummyPlacement) := by
  unfold connStep conn_adj
  rw [List.mem_filter, List.mem_range]
  constructor
  · rintro ⟨h1, h2⟩
    rw [Bool.and_eq_true] at h2
    refine ⟨h1, by simpa using h2.1, ?_⟩
    have := h2.2
    unfold cellsMeet at this
    rw [List.any_eq_true] at this
    obtain ⟨cell, hc1, hc2⟩ := this
    exact ⟨cell, hc1, List.elem_iff.mp hc2⟩
  · rintro ⟨h1, h2, cell, hc1, hc2⟩
    refine ⟨h1, ?_⟩
    rw [Bool.and_eq_true]
    refine ⟨by simpa using h2, ?_⟩
    unfold cellsMeet
    rw [List.any_eq_true]
    exact ⟨cell, hc1, List.elem_iff.mpr hc2⟩

/-- Characterization of `check_connectivity` for `≥ 2` placements: it accepts
iff every placement index is reachable from index `0` in the
intersecting-cells graph. -/
theorem check_connectivity_iff (placed : List Placement)
    (hn : 2 ≤ placed.length) :
    check_connectivity placed = true ↔
      ∀ j < placed.length, connReach placed 0 j := by
  have hnle : ¬ placed.length ≤ 1 := by omega
  rw [check_connectivity, if_neg hnle]
  set n := placed.length with hnEq
  set adj := conn_adj placed with hadjEq
  set R := bfs_go adj (1 + n) [0] [0] with hR
  have hadjlt : ∀ x y, y ∈ adj x → y < n := fun x y hy => conn_adj_lt placed x y hy
  have hadjnd : ∀ x, (adj x).Nodup := fun x => conn_adj_nodup placed x
  have hbounded := bfs_bounded adj n hadjlt hadjnd (1 + n) [0] [0]
    (List.nodup_singleton 0) (by intro v hv; rw [List.mem_singleton.mp hv]; omega)
  have hclosed : ∀ v ∈ R, ∀ u ∈ adj v, u ∈ R := by
    apply bfs_closed adj n hadjlt hadjnd (1 + n) [0] [0]
    · have hsub : ([0] : List Nat).toFinset ⊆ Finset.range n := by
        intro a ha
        simp only [List.toFinset_cons, List.toFinset_nil,
          insert_emptyc_eq, Finset.mem_singleton] at ha
        rw [Finset.mem_range, ha]
        omega
      have hcard : ((Finset.range n) \ ([0] : List Nat).toFinset).card =
          n - 1 := by
        rw [Finset.card_sdiff hsub, Finset.card_range]
        rfl
      rw [List.length_singleton, hcard]
      omega
    · intro v hv
      exact hv
    · intro v hv hnq
      exact absurd hv hnq
  have hsound : ∀ v ∈ R, connReach placed 0 v := by
    intro v hv
    exact bfs_sound adj 0 (1 + n) [0] [0]
      (by intro u hu; rw [List.mem_singleton.mp hu])
      (fun u hu => hu) v hv
  have hmem0 : 0 ∈ R := hbounded.2.2 0 (List.mem_singleton.mpr rfl)
  have hcomplete : ∀ v, connReach placed 0 v → v ∈ R := by
    intro v hvr
    exact reach_mem_of_closed adj R hclosed 0 v hvr hmem0
  show (R.length == n) = true ↔ _
  rw [beq_iff_eq]
  have hsubR : R.toFinset ⊆ Finset.range n := by
    intro a ha
    rw [List.mem_toFinset] at ha
    rw [Finset.mem_range]
    exact hbounded.2.1 a ha
  have hcardR : R.toFinset.card = R.length :=
    List.toFinset_card_of_nodup hbounded.1
  constructor
  · intro hlen j hj
    have hEq : R.toFinset = Finset.range n := by
      apply Finset.eq_of_subset_of_card_le hsubR
      rw [hcardR, hlen, Finset.card_range]
    have : j ∈ R.toFinset := by
      rw [hEq, Finset.mem_range]
      exact hj
    exact hsound j (List.mem_toFinset.mp this)
  · intro hreach
    have hsup : Finset.range n ⊆ R.toFinset := by
      intro j hj
      rw [List.mem_toFinset]
      exact hcomplete j (hreach j (Finset.mem_range.mp hj))
    have : R.toFinset = Finset.range n :=
      Finset.Subset.antisymm hsubR hsup
    rw [← hcardR, this, Finset.card_range]

/-- The search only stores a result after `check_connectivity` has accepted
it, so any returned puzzle passes the connectivity check. -/
theorem gen_attempts_conn (size mw ml : Nat) :
    ∀ (a : Nat) (rng : Rng) (pool : List String)
      (best : Option (Grid × List Placement)) (bs : Nat),
      (∀ g p, best = some (g, p) → check_connectivity p = true) →
      ∀ g p, (gen_attempts size mw ml a rng pool best bs).1 = some (g, p) →
        check_connectivity p = true := by
  intro a
  induction a with
  | zero =>
      intro rng pool best bs hbest g p h
      exact hbest g p h
  | succ a ih =>
      intro rng pool best bs hbest g p h
      rw [gen_attempts] at h
      rcases hsh : shuffle rng pool with ⟨pool', rng₁⟩
      rw [hsh] at h
      cases pool' with
      | nil => exact absurd h (by simp)
      | cons first restPool =>
          simp only at h
          split at h
          · exact ih _ _ _ _ hbest g p h
          · split at h
            · rename_i hcond
              split at h
              · split at h
                · simp only [Option.some.injEq, Prod.mk.injEq] at h
                  rw [← h.2]
                  exact hcond.2.2
                · refine ih _ _ _ _ ?_ g p h
                  intro g' p' he
                  simp only [Option.some.injEq, Prod.mk.injEq] at he
                  rw [← he.2]
                  exact hcond.2.2
              · exact ih _ _ _ _ hbest g p h
            · exact ih _ _ _ _ hbest g p h

/-- Claim C3: `check_connectivity` is trivially true for at most one
placement; for `≥ 2` placements it accepts exactly when every placement is
reachable from the first in the graph whose edges join placements with
intersecting occupied-cell sets; and every puzzle the search returns has
passed this check. -/
theorem C3_check_connectivity :
    (∀ placed : List Placement, placed.length ≤ 1 →
      check_connectivity placed = true) ∧
    (∀ placed : List Placement, 2 ≤ placed.length →
      (check_connectivity placed = true ↔
        ∀ j < placed.length, connReach placed 0 j)) ∧
    (∀ (placed : List Placement) (i j : Nat), connStep placed i j ↔
      (j < placed.length ∧ j ≠ i ∧
        ∃ cell, cell ∈ word_cells (placed.getD i dummyPlacement) ∧
          cell ∈ word_cells (placed.getD j dummyPlacement))) ∧
    (∀ (rng : Rng) (pool : List String) (size mw ml ma : Nat)
      (g : Grid) (placed : List Placement),
      (generate_puzzle rng pool size mw ml ma).1 = some (g, placed) →
      check_connectivity placed = true) := by
  refine ⟨?_, ?_, connStep_iff, ?_⟩
  · intro placed h
    rw [check_connectivity, if_pos h]
  · exact check_connectivity_iff
  · intro rng pool size mw ml ma g placed h
    exact gen_attempts_conn size mw ml ma rng pool none 0
      (fun _ _ he => Option.noConfusion he) g placed h

/-- Witness for `C3_check_connectivity`: a single placement is trivially
connected; two crossing placements are accepted via the reachability
characterization. -/
theorem C3_check_connectivity_witness :
    check_connectivity [Placement.mk "AB" 0 0 Dir.horizontal] = true ∧
    check_connectivity [Placement.mk "AB" 0 0 Dir.horizontal,
      Placement.mk "AC" 0 0 Dir.vertical] = true :=
  ⟨C3_check_connectivity.1 _ (by decide),
   (C3_check_connectivity.2.1 _ (by decide)).mpr (by
      intro j hj
      simp only [List.length_cons, List.length_nil] at hj
      interval_cases j
      · exact Relation.ReflTransGen.refl
      · exact Relation.ReflTransGen.single (show (1 : Nat) ∈ conn_adj
          [Placement.mk "AB" 0 0 Dir.horizontal,
           Placement.mk "AC" 0 0 Dir.vertical] 0 from by decide))⟩

/-! ### Characterization of `find_all_placements` (claim C2) -/

theorem word_shares_cell_iff (g : Grid) (w : String) (row col : Nat) (d : Dir)
    (size : Nat) :
    word_shares_cell g w row col d size = true ↔
      ∃ i < w.length, cellR row d i < size ∧ cellC col d i < size ∧
        getCell g (cellR row d i) (cellC col d i) ≠ 'X' := by
  unfold word_shares_cell
  rw [List.any_eq_true]
  constructor
  · rintro ⟨i, hi, hcond⟩
    simp only [Bool.and_eq_true, decide_eq_true_eq] at hcond
    exact ⟨i, List.mem_range.mp hi, hcond.1.1, hcond.1.2, by simpa using hcond.2⟩
  · rintro ⟨i, hi, h1, h2, h3⟩
    refine ⟨i, List.mem_range.mpr hi, ?_⟩
    simp only [Bool.and_eq_true, decide_eq_true_eq]
    exact ⟨⟨h1, h2⟩, by simpa using h3⟩

theorem is_valid_iff (g : Grid) (ws : List String) (size : Nat) :
    is_valid_after_placement g ws size = true ↔
      ∀ p, IsGridRun g size p → p.word ∈ ws := by
  unfold is_valid_after_placement
  rw [List.all_eq_true]
  constructor
  · intro h p hp
    have hmem : p.word ∈ find_all_runs g size :=
      (find_all_runs_mem g size p.word).mpr ⟨p, hp, rfl⟩
    exact List.elem_iff.mp (h p.word hmem)
  · intro h run hrun
    obtain ⟨p, hp, rfl⟩ := (find_all_runs_mem g size run).mp hrun
    exact List.elem_iff.mpr (h p hp)

/-- Claim C2: for a candidate word (length `≥ 2`, per the spec's data model),
`find_all_placements` returns exactly the triples where the word (a) stays in
bounds and (b) conflicts with no existing letter (together: `placeOK`),
(c) shares an occupied cell with a non-empty grid, and (d) leaves every run
of the updated grid inside the extended word set. -/
theorem C2_find_all_placements (g : Grid) (w : String) (ws : List String)
    (size : Nat) (hw : 2 ≤ w.length) (r c : Nat) (d : Dir) :
    ((r, c, d) ∈ (find_all_placements g w ws size).map
        (fun cand => (cand.row, cand.col, cand.dir))) ↔
      (placeOK g w r c d size ∧
       (0 < count_letters g →
         ∃ i < w.length, cellR r d i < size ∧ cellC c d i < size ∧
           getCell g (cellR r d i) (cellC c d i) ≠ 'X') ∧
       (∀ g', try_place g w r c d size = some g' →
         ∀ p, IsGridRun g' size p → p.word ∈ ws.insert w)) := by
  constructor
  · intro hmem
    rw [List.mem_map] at hmem
    obtain ⟨cand, hcand, hproj⟩ := hmem
    unfold find_all_placements at hcand
    rw [List.mem_flatten] at hcand
    obtain ⟨l, hl, hcl⟩ := hcand
    rw [List.mem_map] at hl
    obtain ⟨d₀, hd₀, rfl⟩ := hl
    simp only at hcl
    by_cases hguard : (if d₀ = Dir.vertical then w.length else 1) ≤ size ∧
        (if d₀ = Dir.horizontal then w.length else 1) ≤ size
    · rw [if_pos hguard] at hcl
      rw [List.mem_flatten] at hcl
      obtain ⟨l2, hl2, hcl2⟩ := hcl
      rw [List.mem_map] at hl2
      obtain ⟨r₀, hr₀, rfl⟩ := hl2
      rw [List.mem_filterMap] at hcl2
      obtain ⟨c₀, hc₀, hfn⟩ := hcl2
      split at hfn
      · exact absurd hfn (by simp)
      · rename_i ng htp
        split at hfn
        · exact absurd hfn (by simp)
        · rename_i hcross
          split at hfn
          · rename_i hvalid
            have hc : cand = ⟨r₀, c₀, d₀, ng⟩ := by
              injection hfn with hfn
              exact hfn.symm
            subst hc
            simp only at hproj
            have hr : r = r₀ ∧ c = c₀ ∧ d = d₀ := by
              have h1 := congrArg (fun t => t.1) hproj
              have h2 := congrArg (fun t => t.2.1) hproj
              have h3 := congrArg (fun t => t.2.2) hproj
              exact ⟨h1.symm, h2.symm, h3.symm⟩
            obtain ⟨rfl, rfl, rfl⟩ := hr
            push_neg at hcross
            refine ⟨?_, ?_, ?_⟩
            · exact (try_place_isSome_iff g w r c d size).mp ⟨ng, htp⟩
            · intro hcnt
              exact (word_shares_cell_iff g w r c d size).mp (hcross hcnt)
            · intro g' hg' p hp
              rw [htp] at hg'
              injection hg' with hg'
              subst hg'
              exact (is_valid_iff ng (ws.insert w) size).mp hvalid p hp
          · exact absurd hfn (by simp)
    · rw [if_neg hguard] at hcl
      exact absurd hcl (List.not_mem_nil cand)
  · rintro ⟨hok, hcross, hvalid⟩
    obtain ⟨ng, htp⟩ := (try_place_isSome_iff g w r c d size).mpr hok
    rw [List.mem_map]
    refine ⟨⟨r, c, d, ng⟩, ?_, rfl⟩
    unfold find_all_placements
    rw [List.mem_flatten]
    have hlen0 : 0 < w.length := by omega
    have hne : Dir.horizontal ≠ Dir.vertical := by
      intro h
      exact Dir.noConfusion h
    have h0 := hok 0 hlen0
    have hL := hok (w.length - 1) (by
      show w.length - 1 < w.toList.length
      have hh : w.toList.length = w.length := rfl
      omega)
    have hfacts : (if d = Dir.vertical then w.length else 1) ≤ size ∧
        r ≤ size - (if d = Dir.vertical then w.length else 1) ∧
        (if d = Dir.horizontal then w.length else 1) ≤ size ∧
        c ≤ size - (if d = Dir.horizontal then w.length else 1) := by
      cases d with
      | horizontal =>
          rw [cellR_horizontal, cellC_horizontal] at h0 hL
          rw [if_neg hne, if_pos rfl]
          have h1 := h0.1
          have h2 := hL.2.1
          omega
      | vertical =>
          rw [cellR_vertical, cellC_vertical] at h0 hL
          rw [if_pos rfl, if_neg (fun h => hne h.symm)]
          have h1 := hL.1
          have h2 := h0.2.1
          omega
    refine ⟨((List.range (size - (if d = Dir.vertical then w.length else 1) + 1)).map
      (fun r' => ((List.range (size - (if d = Dir.horizontal then w.length else 1) + 1)).filterMap
        (fun c' =>
          match try_place g w r' c' d size with
          | none => none
          | some new_grid =>
              if 0 < count_letters g ∧ ¬ word_shares_cell g w r' c' d size then none
              else if is_valid_after_placement new_grid (ws.insert w) size then
                some ⟨r', c', d, new_grid⟩
              else none)))).flatten, ?_, ?_⟩
    · rw [List.mem_map]
      refine ⟨d, by cases d <;> simp, ?_⟩
      simp only
      rw [if_pos ⟨hfacts.1, hfacts.2.2.1⟩]
    · rw [List.mem_flatten]
      refine ⟨(List.range (size - (if d = Dir.horizontal then w.length else 1) + 1)).filterMap
        (fun c' =>
          match try_place g w r c' d size with
          | none => none
          | some new_grid =>
              if 0 < count_letters g ∧ ¬ word_shares_cell g w r c' d size then none
              else if is_valid_after_placement new_grid (ws.insert w) size then
                some ⟨r, c', d, new_grid⟩
              else none), ?_, ?_⟩
      · rw [List.mem_map]
        refine ⟨r, ?_, rfl⟩
        rw [List.mem_range]
        have := hfacts.2.1
        omega
      · rw [List.mem_filterMap]
        refine ⟨c, ?_, ?_⟩
        · rw [List.mem_range]
          have := hfacts.2.2.2
          omega
        · rw [htp]
          show (if 0 < count_letters g ∧ ¬ word_shares_cell g w r c d size then
              (none : Option Cand)
            else if is_valid_after_placement ng (ws.insert w) size then
              some ⟨r, c, d, ng⟩
            else none) = some ⟨r, c, d, ng⟩
          rw [if_neg, if_pos]
          · rw [is_valid_iff]
            exact hvalid ng htp
          · push_neg
            intro hcnt
            rw [word_shares_cell_iff]
            exact hcross hcnt

/-- Witness for `C2_find_all_placements`: on a `3 × 3` grid holding `"AB"`,
the placement `(0, 1, vertical)` of `"BC"` is enumerated, and the
characterization yields its declarative legality. -/
theorem C2_find_all_placements_witness :
    2 ≤ "BC".length ∧ placeOK gridAB "BC" 0 1 Dir.vertical 3 :=
  ⟨by decide,
   ((C2_find_all_placements gridAB "BC" ["AB"] 3 (by decide) 0 1
     Dir.vertical).mp (by decide)).1⟩

/-! ### Pool mutation by the search (claims C9 and C10) -/

theorem set_cons_perm {α : Type} :
    ∀ (xs : List α) (k : Nat) (b a : α),
      xs[k]? = some b → (b :: xs.set k a).Perm (a :: xs) := by
  intro xs
  induction xs with
  | nil => intro k b a h; simp at h
  | cons x xs ih =>
      intro k b a h
      cases k with
      | zero =>
          simp only [List.getElem?_cons_zero, Option.some.injEq] at h
          subst h
          show (x :: a :: xs).Perm (a :: x :: xs)
          exact List.Perm.swap a x xs
      | succ k =>
          simp only [List.getElem?_cons_succ] at h
          show (b :: x :: xs.set k a).Perm (a :: x :: xs)
          refine List.Perm.trans (List.Perm.swap x b _) ?_
          refine List.Perm.trans (List.Perm.cons x (ih k b a h)) ?_
          exact List.Perm.swap a x xs

theorem setSet_perm {α : Type} :
    ∀ (l : List α) (i j : Nat) (a b : α),
      l[i]? = some a → l[j]? = some b → ((l.set i b).set j a).Perm l := by
  intro l
  induction l with
  | nil => intro i j a b h1 _; simp at h1
  | cons x xs ih =>
      intro i j a b h1 h2
      cases i with
      | zero =>
          simp only [List.getElem?_cons_zero, Option.some.injEq] at h1
          cases j with
          | zero =>
              simp only [List.getElem?_cons_zero, Option.some.injEq] at h2
              show (a :: xs).Perm (x :: xs)
              rw [← h1]
          | succ k =>
              simp only [List.getElem?_cons_succ] at h2
              show (b :: xs.set k a).Perm (x :: xs)
              rw [h1]
              exact set_cons_perm xs k b a h2
      | succ m =>
          simp only [List.getElem?_cons_succ] at h1
          cases j with
          | zero =>
              simp only [List.getElem?_cons_zero, Option.some.injEq] at h2
              show (a :: xs.set m b).Perm (x :: xs)
              rw [h2]
              exact set_cons_perm xs m a b h1
          | succ k =>
              simp only [List.getElem?_cons_succ] at h2
              show (x :: (xs.set m b).set k a).Perm (x :: xs)
              exact List.Perm.cons x (ih m k a b h1 h2)

theorem listSwap_perm {α : Type} (l : List α) (i j : Nat) :
    (listSwap l i j).Perm l := by
  unfold listSwap
  cases h1 : l[i]? with
  | none => exact List.Perm.refl l
  | some a =>
      cases h2 : l[j]? with
      | none => exact List.Perm.refl l
      | some b => exact setSet_perm l i j a b h1 h2

theorem shuffle_go_perm {α : Type} :
    ∀ (k : Nat) (rng : Rng) (l : List α), ((shuffle_go rng l k).1).Perm l := by
  intro k
  induction k with
  | zero => intro rng l; exact List.Perm.refl l
  | succ k ih =>
      intro rng l
      simp only [shuffle_go]
      exact List.Perm.trans (ih _ _) (listSwap_perm l (k + 1) _)

theorem shuffle_perm {α : Type} (rng : Rng) (l : List α) :
    ((shuffle rng l).1).Perm l :=
  shuffle_go_perm (l.length - 1) rng l

theorem gen_attempts_pool_perm (size mw ml : Nat) :
    ∀ (a : Nat) (rng : Rng) (pool : List String)
      (best : Option (Grid × List Placement)) (bs : Nat),
      ((gen_attempts size mw ml a rng pool best bs).2.1).Perm pool := by
  intro a
  induction a with
  | zero => intro rng pool best bs; exact List.Perm.refl pool
  | succ a ih =>
      intro rng pool best bs
      rw [gen_attempts]
      rcases hsh : shuffle rng pool with ⟨pool', rng₁⟩
      have hperm : pool'.Perm pool := by
        have := shuffle_perm rng pool
        rw [hsh] at this
        exact this
      cases pool' with
      | nil =>
          simp only
          exact hperm
      | cons first restPool =>
          simp only
          split
          · exact List.Perm.trans (ih _ _ _ _) hperm
          · split
            · split
              · split
                · exact hperm
                · exact List.Perm.trans (ih _ _ _ _) hperm
              · exact List.Perm.trans (ih _ _ _ _) hperm
            · exact List.Perm.trans (ih _ _ _ _) hperm

/-- Claim C10: `generate_puzzle` shuffles its `word_pool` argument in place
(once per attempt), so after the call the caller's list holds the same words
in permuted order; the order can genuinely change, as the concrete run shows
(the module-level word lists are only protected because the driver passes the
copy `POOL_MAP[cfg["pool"]][:]`). -/
theorem C10_pool_mutation :
    (∀ (rng : Rng) (pool : List String) (size mw ml ma : Nat),
      ((generate_puzzle rng pool size mw ml ma).2.1).Perm pool) ∧
    (generate_puzzle ⟨fun _ => 0, 0⟩ ["AB", "CD", "EF", "GH"] 3 99 99 1).2.1 =
      ["CD", "EF", "GH", "AB"] := by
  constructor
  · intro rng pool size mw ml ma
    exact gen_attempts_pool_perm size mw ml ma rng pool none 0
  · decide

/-- Claim C9: the embedding makes the PRNG state an explicit input (the
stream of draws standing for the seeded Mersenne-Twister state), and the
search consults nothing else, so two invocations with identical pool, size,
thresholds, attempt budget and random state return identical puzzles, final
pools and final random states. -/
theorem C9_reproducibility (rng₁ rng₂ : Rng) (pool₁ pool₂ : List String)
    (size mw ml ma : Nat) (hrng : rng₁ = rng₂) (hpool : pool₁ = pool₂) :
    generate_puzzle rng₁ pool₁ size mw ml ma =
      generate_puzzle rng₂ pool₂ size mw ml ma := by
  rw [hrng, hpool]

/-- Witness for `C9_reproducibility` at a concrete invocation. -/
theorem C9_reproducibility_witness :
    generate_puzzle ⟨fun _ => 0, 0⟩ ["AB"] 3 1 0 1 =
      generate_puzzle ⟨fun _ => 0, 0⟩ ["AB"] 3 1 0 1 :=
  C9_reproducibility ⟨fun _ => 0, 0⟩ ⟨fun _ => 0, 0⟩ ["AB"] ["AB"] 3 1 0 1
    rfl rfl

/-! ### The no-ghost postcondition of the search (claim C1) -/

/-- Claim C1 as stated is false: this puzzle is returned by the search as
valid (5 words, 7 letters, connected) and post-processed by `format_puzzle`,
yet scanning its grid yields the run text `"AB"` (the incidental horizontal
run in row 4) while `"AB"` is not among the output words — its only placement
was overlaid inside the `"ABC"` run and is dropped by the cleanup, so the set
of run texts is strictly larger than the set of output word texts. -/
theorem C1_counterexample :
    (generate_puzzle rngC1 poolC1 6 5 7 1).1 = some (gC1, pC1) ∧
    "AB" ∈ find_all_runs gC1 6 ∧
    "AB" ∉ ((format_puzzle gC1 pC1 6).2.map Placement.word) :=
  ⟨by decide, by decide, by decide⟩

/-- Claim C1, amended: for every puzzle the search returns and
post-processes, each output word appears as exactly the maximal run at its
recorded `(row, col, orientation)` and hence its text is among the scanned
run texts; the reverse inclusion — every run text being an output word's
text — does not hold in general. -/
theorem C1_output_words_are_runs (rng : Rng) (pool : List String)
    (size mw ml ma : Nat) (g : Grid) (placed : List Placement)
    (hret : (generate_puzzle rng pool size mw ml ma).1 = some (g, placed)) :
    ∀ p ∈ (format_puzzle g placed size).2,
      IsGridRun g size p ∧ p.word ∈ find_all_runs g size := by
  intro p hp
  have hmem := (clean_go_mem (actual_runs g size) placed [] p).mp hp
  have hrun : p ∈ actual_runs g size := hmem.2.1
  refine ⟨(actual_runs_mem g size p).mp hrun, ?_⟩
  rw [find_all_runs_eq_actual, List.mem_map]
  exact ⟨p, hrun, rfl⟩

/-- Witness for `C1_output_words_are_runs` at the concrete search run. -/
theorem C1_output_words_are_runs_witness :
    (generate_puzzle rngC1 poolC1 6 5 7 1).1 = some (gC1, pC1) ∧
    (IsGridRun gC1 6 ⟨"CDE", 3, 1, Dir.horizontal⟩ ∧
      "CDE" ∈ find_all_runs gC1 6) :=
  ⟨by decide,
   C1_output_words_are_runs rngC1 poolC1 6 5 7 1 gC1 pC1 (by decide)
     ⟨"CDE", 3, 1, Dir.horizontal⟩ (by decide)⟩

end Crossword
